import Mathlib

/-!
Verification of the Mandelbrot viewer core (worker, color module, gradient
resolution, render pipeline) against its specification.

Numbers: JavaScript doubles are modelled by `JNum := Option ℚ`, where
`some q` is a finite value of exact magnitude `q` and `none` is a non-finite
value (`NaN` or `±Infinity`).  The arithmetic below is exact rational
arithmetic; every operation is `none`-absorbing exactly where the JS
operation sends finite operands to non-finite results or propagates them.
The two places where `NaN` and `±Infinity` would behave differently
(ordering comparisons and division/modulo by a non-finite divisor) are
unreachable in the translated functions: every comparison in the source
compares values that are either finite or `NaN`, and every divisor is
either a literal or guarded against zero, as noted at each definition.

The escape-time kernel works on finite coordinates throughout (the spec
requires a valid viewport, `zoom > 0`), so it is translated over plain `ℚ`.
-/

namespace Mandel

/-- JS double model: `some q` is the finite double of exact value `q`,
`none` a non-finite value (`NaN` or `±Infinity`). -/
abbrev JNum := Option ℚ

/-- JS `+` on numbers.  Finite + finite is finite; any non-finite operand
gives a non-finite result (`NaN` stays `NaN`, and the translated code never
adds two infinities of opposite sign since infinities only arise from the
one unguarded division, whose result is consumed whole). -/
def jAdd : JNum → JNum → JNum
  | some a, some b => some (a + b)
  | _, _ => none

/-- JS `-` on numbers; see `jAdd`. -/
def jSub : JNum → JNum → JNum
  | some a, some b => some (a - b)
  | _, _ => none

/-- JS `*` on numbers.  `0 * NaN = NaN` and `0 * ±Infinity = NaN`, so a
non-finite operand always gives a non-finite result. -/
def jMul : JNum → JNum → JNum
  | some a, some b => some (a * b)
  | _, _ => none

/-- JS `/` on numbers.  A zero divisor gives `NaN` or `±Infinity` (non-finite
either way).  A non-finite divisor never occurs in the translated code
(divisors are the literals `60`, `255` or differences guarded against zero),
so the `none`-divisor arm is unreachable. -/
def jDiv : JNum → JNum → JNum
  | some a, some b => if b = 0 then none else some (a / b)
  | _, _ => none

/-- Truncation toward zero, as JS `%` uses. -/
def qTrunc (a : ℚ) : ℤ := if 0 ≤ a then ⌊a⌋ else ⌈a⌉

/-- The value of JS `a % b` for finite `a` and finite `b ≠ 0`. -/
def jsModQ (a b : ℚ) : ℚ := a - b * (qTrunc (a / b) : ℚ)

/-- JS `%` on numbers: remainder with the dividend's sign.  `x % 0 = NaN`,
and a non-finite dividend gives `NaN`.  A non-finite divisor never occurs in
the translated code (divisors are the literals `360` and `6`). -/
def jsMod : JNum → JNum → JNum
  | some a, some b => if b = 0 then none else some (jsModQ a b)
  | _, _ => none

/-- JS `Math.floor`; `NaN` and `±Infinity` map to themselves (non-finite). -/
def jFloor : JNum → JNum
  | some a => some (⌊a⌋ : ℚ)
  | none => none

/-- JS `Math.round x = ⌊x + 1/2⌋` (ties toward `+∞`); non-finite maps to
itself. -/
def jRound : JNum → JNum
  | some a => some (⌊a + 1/2⌋ : ℚ)
  | none => none

/-- JS `Math.abs`. -/
def jAbs : JNum → JNum
  | some a => some |a|
  | none => none

/-- JS `<`: any comparison involving `NaN` is false.  `±Infinity` never
reaches a comparison in the translated code (see the file comment). -/
def jLt : JNum → JNum → Bool
  | some a, some b => decide (a < b)
  | _, _ => false

/-- JS `<=`; see `jLt`. -/
def jLe : JNum → JNum → Bool
  | some a, some b => decide (a ≤ b)
  | _, _ => false

/-- JS `===` on numbers: false when either side is `NaN`.  `±Infinity`
never reaches an equality test in the translated code. -/
def jEq : JNum → JNum → Bool
  | some a, some b => decide (a = b)
  | _, _ => false

/-- JS `Math.max` (binary; the source's ternary call is nested):
`NaN` in, `NaN` out. -/
def jMax : JNum → JNum → JNum
  | some a, some b => some (max a b)
  | _, _ => none

/-- JS `Math.min`; see `jMax`. -/
def jMin : JNum → JNum → JNum
  | some a, some b => some (min a b)
  | _, _ => none

/-! Simp lemmas reducing the JS operations on known-finite operands. -/

@[simp] theorem jAdd_some (a b : ℚ) : jAdd (some a) (some b) = some (a + b) := rfl

@[simp] theorem jSub_some (a b : ℚ) : jSub (some a) (some b) = some (a - b) := rfl

@[simp] theorem jMul_some (a b : ℚ) : jMul (some a) (some b) = some (a * b) := rfl

@[simp] theorem jDiv_some (a b : ℚ) :
    jDiv (some a) (some b) = if b = 0 then none else some (a / b) := rfl

@[simp] theorem jsMod_some (a b : ℚ) :
    jsMod (some a) (some b) = if b = 0 then none else some (jsModQ a b) := rfl

@[simp] theorem jFloor_some (a : ℚ) : jFloor (some a) = some (⌊a⌋ : ℚ) := rfl

@[simp] theorem jRound_some (a : ℚ) : jRound (some a) = some (⌊a + 1/2⌋ : ℚ) := rfl

@[simp] theorem jAbs_some (a : ℚ) : jAbs (some a) = some |a| := rfl

@[simp] theorem jLt_some (a b : ℚ) : jLt (some a) (some b) = decide (a < b) := rfl

@[simp] theorem jLe_some (a b : ℚ) : jLe (some a) (some b) = decide (a ≤ b) := rfl

@[simp] theorem jEq_some (a b : ℚ) : jEq (some a) (some b) = decide (a = b) := rfl

@[simp] theorem jMax_some (a b : ℚ) : jMax (some a) (some b) = some (max a b) := rfl

@[simp] theorem jMin_some (a b : ℚ) : jMin (some a) (some b) = some (min a b) := rfl

@[simp] theorem jAdd_none_right (a : JNum) : jAdd a none = none := by cases a <;> rfl

@[simp] theorem jAdd_none_left (a : JNum) : jAdd none a = none := rfl

@[simp] theorem jSub_none_right (a : JNum) : jSub a none = none := by cases a <;> rfl

@[simp] theorem jSub_none_left (a : JNum) : jSub none a = none := rfl

@[simp] theorem jMul_none_right (a : JNum) : jMul a none = none := by cases a <;> rfl

@[simp] theorem jMul_none_left (a : JNum) : jMul none a = none := rfl

@[simp] theorem jDiv_none_right (a : JNum) : jDiv a none = none := by cases a <;> rfl

@[simp] theorem jDiv_none_left (a : JNum) : jDiv none a = none := rfl

@[simp] theorem jsMod_none_left (a : JNum) : jsMod none a = none := rfl

@[simp] theorem jsMod_none_right (a : JNum) : jsMod a none = none := by cases a <;> rfl

@[simp] theorem jFloor_none : jFloor none = none := rfl

@[simp] theorem jRound_none : jRound none = none := rfl

@[simp] theorem jAbs_none : jAbs none = none := rfl

@[simp] theorem jLt_none_left (a : JNum) : jLt none a = false := rfl

@[simp] theorem jLt_none_right (a : JNum) : jLt a none = false := by cases a <;> rfl

@[simp] theorem jLe_none_left (a : JNum) : jLe none a = false := rfl

@[simp] theorem jLe_none_right (a : JNum) : jLe a none = false := by cases a <;> rfl

@[simp] theorem jEq_none_left (a : JNum) : jEq none a = false := rfl

@[simp] theorem jEq_none_right (a : JNum) : jEq a none = false := by cases a <;> rfl

/-! ## Color model (src/worker.ts and the color module)

The color functions appear verbatim in both `worker.ts` and the color
module (`colors.ts`); the translation below is from that shared text. -/

/-- An HSV triple as the source's `{h, s, v}` object. -/
structure Hsv where
  h : JNum
  s : JNum
  v : JNum

/-- An RGB triple as the source's `{r, g, b}` object. -/
structure Rgb where
  r : JNum
  g : JNum
  b : JNum

/-- Value of a hex digit character, `none` for a non-digit. -/
def hexDigitVal? (c : Char) : Option ℕ :=
  if '0' ≤ c ∧ c ≤ '9' then some (c.toNat - '0'.toNat)
  else if 'a' ≤ c ∧ c ≤ 'f' then some (c.toNat - 'a'.toNat + 10)
  else if 'A' ≤ c ∧ c ≤ 'F' then some (c.toNat - 'A'.toNat + 10)
  else none

/-- Accumulate the value of the leading run of hex digits, as
`parseInt(s, 16)` does once it has seen at least one digit. -/
def hexPrefixVal : List Char → ℕ → ℕ
  | [], acc => acc
  | c :: cs, acc =>
    match hexDigitVal? c with
    | some d => hexPrefixVal cs (16 * acc + d)
    | none => acc

/-- JS `parseInt(s, 16)` restricted to the inputs the color code builds:
`NaN` (here `none`) when the string has no leading hex digit, otherwise the
value of the longest digit prefix.  (The full `parseInt` also trims blanks
and accepts a sign or `0x` prefix; those never occur in two-character slices
of a color string.) -/
def parseIntHex (cs : List Char) : JNum :=
  match cs with
  | [] => none
  | c :: _ => if (hexDigitVal? c).isSome then some ((hexPrefixVal cs 0 : ℕ) : ℚ) else none

/-- JS `hex.replace("#", "")`: a string pattern replaces only the first
occurrence. -/
def removeFirstHash : List Char → List Char
  | [] => []
  | c :: cs => if c = '#' then cs else c :: removeFirstHash cs

/-- Source `hexToHsv` (worker.ts lines 15–41): parse the three channel
bytes, normalise to `[0,1]`, and compute max/min-based hue, saturation and
value.  The `diff !== 0` test is true for `NaN` (`NaN !== 0`), which the
`jEq … = false` arm reproduces. -/
def hexToHsv (hex : String) : Hsv :=
  let cs := removeFirstHash hex.toList
  let r := jDiv (parseIntHex (cs.take 2)) (some 255)
  let g := jDiv (parseIntHex ((cs.drop 2).take 2)) (some 255)
  let b := jDiv (parseIntHex ((cs.drop 4).take 2)) (some 255)
  let mx := jMax r (jMax g b)
  let mn := jMin r (jMin g b)
  let diff := jSub mx mn
  let s := if jEq mx (some 0) then some 0 else jDiv diff mx
  let v := mx
  let h :=
    if jEq diff (some 0) then some 0
    else if jEq mx r then
      jMul (some 60) (jAdd (jDiv (jSub g b) diff) (if jLt g b then some 6 else some 0))
    else if jEq mx g then jMul (some 60) (jAdd (jDiv (jSub b r) diff) (some 2))
    else jMul (some 60) (jAdd (jDiv (jSub r g) diff) (some 4))
  ⟨h, s, v⟩

/-- Source `hsvToRgb` (worker.ts lines 44–99): achromatic shortcut for
`s === 0`, otherwise the sector decomposition.  `switch (i % 6)` uses strict
equality, so a non-finite or negative `i % 6` matches no case and the
initialisers `r = g = b = 0` survive. -/
def hsvToRgb (h s v : JNum) : Rgb :=
  if jEq s (some 0) then
    let value := jRound (jMul v (some 255))
    ⟨value, value, value⟩
  else
    let h := jDiv h (some 60)
    let i := jFloor h
    let f := jSub h i
    let p := jMul v (jSub (some 1) s)
    let q := jMul v (jSub (some 1) (jMul s f))
    let t := jMul v (jSub (some 1) (jMul s (jSub (some 1) f)))
    let i6 := jsMod i (some 6)
    let rgb :=
      if jEq i6 (some 0) then (v, t, p)
      else if jEq i6 (some 1) then (q, v, p)
      else if jEq i6 (some 2) then (p, v, t)
      else if jEq i6 (some 3) then (p, q, v)
      else if jEq i6 (some 4) then (t, p, v)
      else if jEq i6 (some 5) then (v, p, q)
      else (some 0, some 0, some 0)
    ⟨jRound (jMul rgb.1 (some 255)), jRound (jMul rgb.2.1 (some 255)),
      jRound (jMul rgb.2.2 (some 255))⟩

/-- Source `interpolateHue` (worker.ts lines 101–119): normalise both hues
into `[0,360)`, wrap the nearer endpoint when the raw difference exceeds
`180`, blend linearly, re-normalise. -/
def interpolateHue (h1 h2 t : JNum) : JNum :=
  let h1 := jsMod (jAdd (jsMod h1 (some 360)) (some 360)) (some 360)
  let h2 := jsMod (jAdd (jsMod h2 (some 360)) (some 360)) (some 360)
  let diff := jSub h2 h1
  let p :=
    if jLt (some 180) (jAbs diff) then
      if jLt (some 0) diff then (jAdd h1 (some 360), h2) else (h1, jAdd h2 (some 360))
    else (h1, h2)
  jsMod (jAdd (jsMod (jAdd p.1 (jMul (jSub p.2 p.1) t)) (some 360)) (some 360)) (some 360)

/-- Source `interpolateHsv` (worker.ts lines 122–135): circular hue, linear
saturation and value, then convert to RGB. -/
def interpolateHsv (hsv1 hsv2 : Hsv) (t : JNum) : Rgb :=
  let h := interpolateHue hsv1.h hsv2.h t
  let s := jAdd hsv1.s (jMul (jSub hsv2.s hsv1.s) t)
  let v := jAdd hsv1.v (jMul (jSub hsv2.v hsv1.v) t)
  hsvToRgb h s v

/-! ## Gradient engine (colors.ts, `interpolateGradientStops`) -/

/-- A gradient color stop (GradientEditor.tsx): opaque id, 6-digit hex
color string, position in `[0,1]`.  Positions come from the UI as finite
doubles, so they are plain rationals here. -/
structure ColorStop where
  id : String
  color : String
  position : ℚ

/-- The source's bracketing loop: the first adjacent pair `(a, b)` with
`t >= a.position && t <= b.position`, scanning left to right; `none` when no
pair matches (then the caller's initialisers apply). -/
def scanBracket (t : JNum) : List ColorStop → Option (ColorStop × ColorStop)
  | a :: b :: rest =>
    if jLe (some a.position) t && jLe t (some b.position) then some (a, b)
    else scanBracket t (b :: rest)
  | _ => none

/-- Source `interpolateGradientStops` (colors.ts lines 197–222).
`startStop`/`endStop` are initialised to the first and last stop and
replaced by the first bracketing pair; `localT` is the unguarded division.
On an empty list the source dereferences `stops[0]` (`undefined`) and
throws, modelled by `none`. -/
def interpolateGradientStops (stops : List ColorStop) (t : JNum) : Option Rgb :=
  match stops with
  | [] => none
  | s0 :: rest =>
    let pair := (scanBracket t (s0 :: rest)).getD
      (s0, (s0 :: rest).getLast (List.cons_ne_nil s0 rest))
    let startStop := pair.1
    let endStop := pair.2
    let localT := jDiv (jSub t (some startStop.position))
      (some (endStop.position - startStop.position))
    some (interpolateHsv (hexToHsv startStop.color) (hexToHsv endStop.color) localT)

/-! ## Escape-time kernel (src/worker.ts lines 12, 137–146, 178–194)

The kernel runs on finite coordinates (the spec requires `zoom > 0` and
finite centers), so it is translated over plain `ℚ`.  The source literals
`0.25`, `0.0625`, `2.5` and `4` are exact doubles and exact rationals. -/

/-- Source `MAX_ITERATIONS = 800`. -/
def MAX_ITERATIONS : ℕ := 800

/-- Source `inMainCardioid` (worker.ts lines 138–143). -/
def inMainCardioid (cr ci : ℚ) : Bool :=
  let q := (cr - 0.25) * (cr - 0.25) + ci * ci
  decide (q * (q + (cr - 0.25)) < 0.25 * ci * ci)

/-- Source `inPeriod2Bulb` (worker.ts lines 144–146). -/
def inPeriod2Bulb (cr ci : ℚ) : Bool :=
  decide ((cr + 1) * (cr + 1) + ci * ci < 0.0625)

/-- The source escape loop (worker.ts lines 184–193):
`while (zr*zr + zi*zi < 4 && iter < MAX_ITERATIONS) { z = z² + c; iter++ }`.
The loop counter `iter` starts at `0` and increments exactly once per body
execution, and the `iter < MAX_ITERATIONS` guard is encoded by calling with
`fuel = MAX_ITERATIONS - iter`, so the returned value is both the iteration
count and the number of body executions. -/
def escapeLoop (real imag : ℚ) : ℕ → ℚ → ℚ → ℕ → ℕ
  | 0, _, _, iter => iter
  | fuel + 1, zr, zi, iter =>
    if zr * zr + zi * zi < 4 then
      escapeLoop real imag fuel (zr * zr - zi * zi + real) (2 * zr * zi + imag) (iter + 1)
    else iter

/-- The escape loop from `z₀ = 0`, as the source runs it per pixel. -/
def escapeIter (real imag : ℚ) : ℕ :=
  escapeLoop real imag MAX_ITERATIONS 0 0 0

/-- The per-pixel iteration count (worker.ts lines 178–194): interior fast
paths first, then the escape loop. -/
def mandelIter (real imag : ℚ) : ℕ :=
  if inMainCardioid real imag || inPeriod2Bulb real imag then MAX_ITERATIONS
  else escapeIter real imag

/-- Modelled from the spec: the escape loop with the period-1 detection the
spec (§4.3) and NOTES.md (§1b) describe but src/worker.ts does not contain:
after each iteration the new `z` is compared to the immediately preceding
`z`, and on an exact match the iteration count is set to `MAX_ITERATIONS`
immediately.  Returns `(iteration count, number of body executions)` so the
early exit is observable. -/
def escapeLoopP1 (real imag : ℚ) : ℕ → ℚ → ℚ → ℕ → ℕ → ℕ × ℕ
  | 0, _, _, iter, steps => (iter, steps)
  | fuel + 1, zr, zi, iter, steps =>
    if zr * zr + zi * zi < 4 then
      let newZr := zr * zr - zi * zi + real
      let newZi := 2 * zr * zi + imag
      if newZr = zr ∧ newZi = zi then (MAX_ITERATIONS, steps + 1)
      else escapeLoopP1 real imag fuel newZr newZi (iter + 1) (steps + 1)
    else (iter, steps)

/-- Modelled from the spec: `escapeLoopP1` from `z₀ = 0`. -/
def escapeIterP1 (real imag : ℚ) : ℕ × ℕ :=
  escapeLoopP1 real imag MAX_ITERATIONS 0 0 0 0

/-! ## Render pass (src/worker.ts `render`, lines 150–212)

The pass writes into a `width*height*4` RGBA byte buffer
(`ctx.createImageData`, zero-initialised), row-major, 4 bytes per pixel at
`idx = 4*(y*width + x)`.  `Math.pow` is transcendental, so it is left as an
abstract parameter `jpow`; every statement below holds for every `jpow`,
and both the translated pass and the reference definition receive the same
one. -/

/-- The fields of the source's `RenderMessage` that `render` reads (the
canvas itself is handled by the message-handler model below). -/
structure RenderParams where
  width : ℕ
  height : ℕ
  centerX : ℚ
  centerY : ℚ
  zoom : ℚ
  startColor : String
  endColor : String
  powerFactor : JNum

/-- Storing a number into a `Uint8ClampedArray` slot: non-finite becomes
`0`, finite values clamp into `[0,255]`.  (The array also rounds non-integer
values half-to-even; every value the pass stores is a `Math.round` result or
a literal, hence an integer, so `⌊·⌋` is exact on the reachable inputs.) -/
def clampByte : JNum → ℕ
  | none => 0
  | some q => if q ≤ 0 then 0 else if 255 ≤ q then 255 else (⌊q⌋).toNat

/-- The source's pixel-to-plane map for the real axis (worker.ts line 175):
`center.x + ((x - width / 2) * (2.5 / zoom)) / width`. -/
def pixelReal (p : RenderParams) (x : ℕ) : ℚ :=
  p.centerX + (((x : ℚ) - (p.width : ℚ) / 2) * (2.5 / p.zoom)) / (p.width : ℚ)

/-- The source's pixel-to-plane map for the imaginary axis (worker.ts line
176): `center.y + ((y - height / 2) * (2.5 / zoom)) / width` — the divisor
is `width` for both axes. -/
def pixelImag (p : RenderParams) (y : ℕ) : ℚ :=
  p.centerY + (((y : ℚ) - (p.height : ℚ) / 2) * (2.5 / p.zoom)) / (p.width : ℚ)

/-- One iteration of the source's inner loop body (worker.ts lines 174–207):
compute the pixel's iteration count and store its four bytes at
`idx = 4*(y*width + x)`. -/
def writePixel (p : RenderParams) (jpow : JNum → JNum → JNum)
    (startHsv endHsv : Hsv) (data : Array ℕ) (x y : ℕ) : Array ℕ :=
  let real := pixelReal p x
  let imag := pixelImag p y
  let iter := mandelIter real imag
  let idx := 4 * (y * p.width + x)
  if iter < MAX_ITERATIONS then
    let t := jpow (some ((iter : ℚ) / (MAX_ITERATIONS : ℚ))) p.powerFactor
    let c := interpolateHsv startHsv endHsv t
    ((((data.setD idx (clampByte c.r)).setD (idx + 1) (clampByte c.g)).setD
      (idx + 2) (clampByte c.b)).setD (idx + 3) 255)
  else
    ((((data.setD idx 0).setD (idx + 1) 0).setD (idx + 2) 0).setD (idx + 3) 255)

/-- The source `render`'s pixel buffer (worker.ts lines 160–209): start from
the zero-initialised `createImageData` buffer of `4*width*height` bytes,
convert the two gradient endpoint colors once, then loop `y` outer, `x`
inner. -/
def renderData (p : RenderParams) (jpow : JNum → JNum → JNum) : Array ℕ :=
  let startHsv := hexToHsv p.startColor
  let endHsv := hexToHsv p.endColor
  (List.range p.height).foldl
    (fun data y =>
      (List.range p.width).foldl (fun data x => writePixel p jpow startHsv endHsv data x y) data)
    (Array.mkArray (4 * (p.width * p.height)) 0)

/-- Reference per-pixel RGBA value, written from the claim's words: map the
pixel to `real`/`imag` with `width` as divisor for both axes, compute the
iteration count, write opaque black when it equals `MAX_ITERATIONS`,
otherwise the gradient color at `t = (iter / MAX_ITERATIONS) ^ powerFactor`
with the exponent applied before gradient lookup; alpha is always `255`. -/
def specPixelRGBA (p : RenderParams) (jpow : JNum → JNum → JNum)
    (x y : ℕ) : ℕ × ℕ × ℕ × ℕ :=
  let real := p.centerX + (((x : ℚ) - (p.width : ℚ) / 2) * (2.5 / p.zoom)) / (p.width : ℚ)
  let imag := p.centerY + (((y : ℚ) - (p.height : ℚ) / 2) * (2.5 / p.zoom)) / (p.width : ℚ)
  let iter := mandelIter real imag
  if iter = MAX_ITERATIONS then (0, 0, 0, 255)
  else
    let t := jpow (some ((iter : ℚ) / (MAX_ITERATIONS : ℚ))) p.powerFactor
    let c := interpolateHsv (hexToHsv p.startColor) (hexToHsv p.endColor) t
    (clampByte c.r, clampByte c.g, clampByte c.b, 255)

/-! ## Worker message handler (src/worker.ts lines 214–222)

`self.onmessage` stores a canvas-bearing message's canvas and returns;
a parameter message renders into the stored canvas if one exists, and is
otherwise ignored.  The state is the `offscreenCanvas` module variable. -/

/-- A worker message: either it carries a canvas (`e.data.canvas` truthy) or
it is a render-parameter message. -/
inductive WorkerMsg (C P : Type) where
  | canvas (c : C)
  | params (p : P)

/-- Source `self.onmessage`: returns the new stored canvas and the render
action performed (`some (target, params)`), if any. -/
def onmessage {C P : Type} (st : Option C) : WorkerMsg C P → Option C × Option (C × P)
  | .canvas c => (some c, none)
  | .params p =>
    match st with
    | some c => (some c, some (c, p))
    | none => (none, none)

/-- The handler run over a message sequence, collecting the render actions
in order. -/
def workerRun {C P : Type} (st : Option C) : List (WorkerMsg C P) → Option C × List (C × P)
  | [] => (st, [])
  | m :: ms =>
    let r := onmessage st m
    let rest := workerRun r.1 ms
    (rest.1, r.2.toList ++ rest.2)

/-! ## Render pipeline debounce (MandelbrotViewer.tsx lines 69–80)

`postRender` is `debounce(msg => worker.postMessage(msg), 100, {maxWait:
400})` from lodash.  lodash is an external dependency, not part of this
repository, so its coalescing behaviour is modelled from the spec (§4.5 and
§9): a coalescing queue of depth 1 — a new request replaces the pending one
entirely — with a sliding `wait` deadline and a fixed `maxWait` deadline
started by the burst's first request; when either deadline is reached the
latest request is dispatched and the queue cleared. -/

/-- Modelled from the spec: the debouncer's state — the pending request (the
coalescing queue of depth 1), the sliding deadline and the burst's max-wait
deadline. -/
structure DebounceState (R : Type) where
  pending : Option R
  deadline : Option ℕ
  maxDeadline : Option ℕ

/-- Modelled from the spec: the idle debouncer. -/
def debounceInit {R : Type} : DebounceState R := ⟨none, none, none⟩

/-- Modelled from the spec: the earliest armed deadline. -/
def dueTime {R : Type} (s : DebounceState R) : Option ℕ :=
  match s.deadline, s.maxDeadline with
  | some d, some m => some (min d m)
  | some d, none => some d
  | none, some m => some m
  | none, none => none

/-- Modelled from the spec: at time `t`, dispatch the pending request if a
deadline has been reached, clearing the state. -/
def fireIfDue {R : Type} (s : DebounceState R) (t : ℕ) : DebounceState R × List R :=
  match s.pending, dueTime s with
  | some r, some d => if d ≤ t then (debounceInit, [r]) else (s, [])
  | _, _ => (s, [])

/-- Modelled from the spec: submit a request at time `t` — after any due
dispatch, the new request replaces the pending one entirely, the sliding
deadline moves to `t + wait`, and the max-wait deadline is armed at
`t + maxWait` only if not already armed. -/
def debounceSubmit {R : Type} (wait maxWait : ℕ) (s : DebounceState R) (t : ℕ) (r : R) :
    DebounceState R × List R :=
  let fired := fireIfDue s t
  (⟨some r, some (t + wait), some (fired.1.maxDeadline.getD (t + maxWait))⟩, fired.2)

/-- Modelled from the spec: run the debouncer over timestamped submissions
(times non-decreasing), then let the final deadline expire; returns every
dispatched request in order. -/
def debounceRun {R : Type} (wait maxWait : ℕ) (subs : List (ℕ × R)) : List R :=
  let f := subs.foldl
    (fun (acc : DebounceState R × List R) tr =>
      let step := debounceSubmit wait maxWait acc.1 tr.1 tr.2
      (step.1, acc.2 ++ step.2))
    (debounceInit, [])
  f.2 ++ f.1.pending.toList

/-! ## Helper lemmas -/

/-- The escape loop at `c = 0` never leaves the state `z = 0`, so it
consumes every available iteration: each recursive step is one execution of
the source loop body, and none exits early. -/
theorem escapeLoop_zero_consumes_fuel (fuel iter : ℕ) :
    escapeLoop 0 0 fuel 0 0 iter = iter + fuel := by
  induction fuel generalizing iter with
  | zero => rfl
  | succ n ih =>
    rw [escapeLoop]
    norm_num
    rw [ih]
    omega

/-- Unfolding equation for the spec-modelled loop. -/
theorem escapeLoopP1_succ (real imag zr zi : ℚ) (fuel iter steps : ℕ) :
    escapeLoopP1 real imag (fuel + 1) zr zi iter steps =
      (if zr * zr + zi * zi < 4 then
        let newZr := zr * zr - zi * zi + real
        let newZi := 2 * zr * zi + imag
        if newZr = zr ∧ newZi = zi then (MAX_ITERATIONS, steps + 1)
        else escapeLoopP1 real imag fuel newZr newZi (iter + 1) (steps + 1)
      else (iter, steps)) := rfl

/-- C1: the claim says the escape loop compares each new `z` to the
immediately preceding `z` and short-circuits to `MAX_ITERATIONS` on a match,
so that a fixed-point orbit such as `c = 0` returns without executing all
800 loop iterations.  The source loop (worker.ts lines 184–193) contains no
such comparison: at `c = 0` it does return `MAX_ITERATIONS`, but only after
consuming every one of the 800 available iterations (second conjunct: every
unit of fuel is spent), whereas the loop the spec and NOTES.md describe
(`escapeLoopP1`, modelled from the spec) would return `MAX_ITERATIONS`
after a single body execution (third conjunct). -/
theorem c1_escape_loop_lacks_period1_detection :
    escapeIter 0 0 = MAX_ITERATIONS ∧
    (∀ fuel iter : ℕ, escapeLoop 0 0 fuel 0 0 iter = iter + fuel) ∧
    escapeIterP1 0 0 = (MAX_ITERATIONS, 1) := by
  refine ⟨?_, escapeLoop_zero_consumes_fuel, ?_⟩
  · rw [escapeIter, escapeLoop_zero_consumes_fuel]
    omega
  · rw [escapeIterP1]
    rw [show MAX_ITERATIONS = 799 + 1 from rfl, escapeLoopP1_succ]
    norm_num [MAX_ITERATIONS]

/-- C10: the worker's message handler renders only after surface ownership
transfer.  A canvas-bearing message only stores the canvas and triggers no
render; a parameter message arriving while no canvas is stored is silently
dropped (state unchanged, no action); and with a canvas stored, every
parameter message renders into exactly that stored canvas. -/
theorem c10_worker_renders_only_into_stored_canvas (C P : Type) :
    (∀ (st : Option C) (c : C), @onmessage C P st (.canvas c) = (some c, none)) ∧
    (∀ p : P, @onmessage C P none (.params p) = (none, none)) ∧
    (∀ qs : List P, @workerRun C P none (qs.map .params) = (none, [])) ∧
    (∀ (c : C) (ps : List P),
      @workerRun C P (some c) (ps.map .params) = (some c, ps.map fun p => (c, p))) := by
  refine ⟨fun _ _ => rfl, fun _ => rfl, ?_, ?_⟩
  · intro qs
    induction qs with
    | nil => rfl
    | cons q qs ih => simp [workerRun, onmessage, ih]
  · intro c ps
    induction ps with
    | nil => rfl
    | cons q qs ih => simp [workerRun, onmessage, ih]

/-- JS division by an exact zero yields a non-finite value. -/
@[simp] theorem jDiv_zero_right (a : JNum) : jDiv a (some 0) = none := by
  cases a <;> simp [jDiv]

/-- A non-finite blend parameter makes `interpolateHue` non-finite,
whatever the endpoint hues are. -/
theorem interpolateHue_none_t (h1 h2 : JNum) : interpolateHue h1 h2 none = none := by
  unfold interpolateHue
  simp

/-- With a non-finite blend parameter, the interpolated `h`, `s`, `v` are
all `NaN`; in `hsvToRgb` the `s === 0` shortcut fails, `i % 6` is `NaN`,
the `switch` matches no case, and the zero initialisers survive:
the result is exactly black. -/
theorem interpolateHsv_none_t (a b : Hsv) :
    interpolateHsv a b none = ⟨some 0, some 0, some 0⟩ := by
  unfold interpolateHsv
  rw [interpolateHue_none_t]
  simp [hsvToRgb]
  norm_num

/-- Gradient resolution on a single-stop list: the stop brackets itself,
the unguarded division is `(t - p) / 0`, and the non-finite `localT`
degenerates to black. -/
theorem gradient_single_stop (s : ColorStop) (t : JNum) :
    interpolateGradientStops [s] t = some ⟨some 0, some 0, some 0⟩ := by
  unfold interpolateGradientStops
  simp [scanBracket, interpolateHsv_none_t]

/-- Gradient resolution when the bracketing pair shares one position:
`localT` is non-finite and the result is black. -/
theorem gradient_bracket_collapsed (stops : List ColorStop) (t : JNum)
    (a b : ColorStop) (s0 : ColorStop) (rest : List ColorStop)
    (hstops : stops = s0 :: rest)
    (hbr : scanBracket t stops = some (a, b)) (heq : a.position = b.position) :
    interpolateGradientStops stops t = some ⟨some 0, some 0, some 0⟩ := by
  subst hstops
  simp only [interpolateGradientStops, hbr]
  simp [heq, interpolateHsv_none_t]

/-- C4 (counterexample): the claim says the `localT` division is guarded so
that bracketing stops at the same position yield the color of stop `a`.  At
`t = 0` with stops `#FFFFFF@0, #FF0000@0, #000000@1` the bracketing pair is
the two stops at position 0; the source divides by zero, `localT` is `NaN`,
and the result is black — not white, the color of stop `a`. -/
theorem c4_counterexample :
    interpolateGradientStops
        [⟨"start", "#FFFFFF", 0⟩, ⟨"mid", "#FF0000", 0⟩, ⟨"end", "#000000", 1⟩] (some 0)
      = some ⟨some 0, some 0, some 0⟩ ∧
    Rgb.mk (some 0) (some 0) (some 0) ≠ ⟨some 255, some 255, some 255⟩ := by
  constructor
  · exact gradient_bracket_collapsed _ _ ⟨"start", "#FFFFFF", 0⟩ ⟨"mid", "#FF0000", 0⟩ _ _
      rfl (by norm_num [scanBracket]) rfl
  · simp only [ne_eq, Rgb.mk.injEq, Option.some.injEq]
    norm_num

/-- C4 (amended): the division computing `localT` is not guarded.  When the
bracketing stops `a` and `b` share a position, `localT` is non-finite
(`NaN`), and the NaN propagates so that `hsvToRgb`'s switch matches no
sector: resolution still returns a well-defined color, but it is black
`(0,0,0)`, not the color of stop `a` (unless that color is black). -/
theorem c4_unguarded_division_yields_black (stops : List ColorStop) (t : JNum)
    (a b : ColorStop) (s0 : ColorStop) (rest : List ColorStop)
    (hstops : stops = s0 :: rest)
    (hbr : scanBracket t stops = some (a, b)) (heq : a.position = b.position) :
    interpolateGradientStops stops t = some ⟨some 0, some 0, some 0⟩ :=
  gradient_bracket_collapsed stops t a b s0 rest hstops hbr heq

/-- C4 witness: the amended claim at the concrete collapsed bracket. -/
theorem c4_witness :
    interpolateGradientStops
        [⟨"start", "#FFFFFF", 0⟩, ⟨"mid", "#FF0000", 0⟩, ⟨"end", "#000000", 1⟩] (some 0)
      = some ⟨some 0, some 0, some 0⟩ :=
  c4_unguarded_division_yields_black _ (some 0) ⟨"start", "#FFFFFF", 0⟩ ⟨"mid", "#FF0000", 0⟩
    ⟨"start", "#FFFFFF", 0⟩ [⟨"mid", "#FF0000", 0⟩, ⟨"end", "#000000", 1⟩]
    rfl (by norm_num [scanBracket]) rfl

/-- C5 (counterexample): the claim says a degenerate stop list (zero or one
stop) does not crash and resolves to the first/last stop's color.  On the
empty list the source dereferences `stops[0]` (`undefined`) and throws
(modelled `none`); on a single white stop the self-bracket divides by zero
and returns black, not the stop's white. -/
theorem c5_counterexample :
    interpolateGradientStops [] (some (1/2)) = none ∧
    interpolateGradientStops [⟨"only", "#FFFFFF", 1/2⟩] (some (1/2))
      = some ⟨some 0, some 0, some 0⟩ ∧
    Rgb.mk (some 0) (some 0) (some 0) ≠ ⟨some 255, some 255, some 255⟩ := by
  refine ⟨rfl, gradient_single_stop _ _, ?_⟩
  simp only [ne_eq, Rgb.mk.injEq, Option.some.injEq]
  norm_num

/-- C5 (amended): on an empty stop list the function dereferences a missing
element and throws (modelled `none`); on a single-stop list it does fall
back to that stop as both bracket ends, but the unguarded division makes
`localT` non-finite and the result is black `(0,0,0)` — the stop's color
only when that color is black. -/
theorem c5_degenerate_gradient_behaviour (s : ColorStop) (t : JNum) :
    interpolateGradientStops [] t = none ∧
    interpolateGradientStops [s] t = some ⟨some 0, some 0, some 0⟩ :=
  ⟨rfl, gradient_single_stop s t⟩

/-- C7: with exactly two stops, one at position 0 and one at position 1,
and any `t ∈ [0,1]`, multi-stop gradient resolution returns exactly the
historical two-stop interpolation
`interpolateHsv (hexToHsv firstColor) (hexToHsv lastColor) t`. -/
theorem c7_two_stops_reduce_to_interpolateHsv (id1 id2 c1 c2 : String) (t : ℚ)
    (h0 : 0 ≤ t) (h1 : t ≤ 1) :
    interpolateGradientStops [⟨id1, c1, 0⟩, ⟨id2, c2, 1⟩] (some t)
      = some (interpolateHsv (hexToHsv c1) (hexToHsv c2) (some t)) := by
  simp only [interpolateGradientStops, scanBracket]
  simp [h0, h1]

/-- C7 witness: the reduction at a concrete two-stop white→black gradient
and `t = 1/2`. -/
theorem c7_witness :
    interpolateGradientStops [⟨"start", "#FFFFFF", 0⟩, ⟨"end", "#000000", 1⟩] (some (1/2))
      = some (interpolateHsv (hexToHsv "#FFFFFF") (hexToHsv "#000000") (some (1/2))) :=
  c7_two_stops_reduce_to_interpolateHsv "start" "end" "#FFFFFF" "#000000" (1/2)
    (by norm_num) (by norm_num)

/-- During a burst — each submission arriving before the sliding deadline
and before the burst's max-wait deadline — no dispatch fires and the
pending request is always the latest submission. -/
theorem debounce_burst {R : Type} (M : ℕ) (subs : List (ℕ × R)) :
    ∀ (tc : ℕ) (r : R) (acc : List R),
      List.Chain (fun a b => b.1 < a.1 + 100) (tc, r) subs →
      (∀ x ∈ subs, x.1 < M) →
      subs.foldl
        (fun (acc : DebounceState R × List R) tr =>
          let step := debounceSubmit 100 400 acc.1 tr.1 tr.2
          (step.1, acc.2 ++ step.2))
        (⟨some r, some (tc + 100), some M⟩, acc)
      = (⟨some ((subs.getLastD (tc, r)).2), some ((subs.getLastD (tc, r)).1 + 100), some M⟩, acc) := by
  induction subs with
  | nil => intro tc r acc _ _; rfl
  | cons tr rest ih =>
    intro tc r acc hchain hmax
    rcases List.chain_cons.mp hchain with ⟨hlt, hchain'⟩
    have hM : tr.1 < M := hmax tr (List.mem_cons_self tr rest)
    have hstep : debounceSubmit 100 400 ⟨some r, some (tc + 100), some M⟩ tr.1 tr.2
        = (⟨some tr.2, some (tr.1 + 100), some M⟩, []) := by
      simp only [debounceSubmit, fireIfDue, dueTime]
      rw [if_neg (by omega)]
      rfl
    rw [List.foldl_cons]
    simp only [hstep]
    rw [List.append_nil]
    rw [ih tr.1 tr.2 acc hchain' (fun x hx => hmax x (List.mem_cons_of_mem tr hx))]
    rw [List.getLastD_cons]

/-- C3 (spec-modelled): `N ≥ 1` parameter changes submitted within one
debounce window — consecutive gaps under the 100 ms wait and all within the
burst's 400 ms max-wait — produce exactly one dispatched render, and it
carries exactly the whole parameter record of the last change; no field of
an earlier request survives, since the dispatched value is the last
submission itself. -/
theorem c3_debounce_coalesces_to_last (t0 : ℕ) (r0 : RenderParams)
    (rest : List (ℕ × RenderParams))
    (hchain : List.Chain (fun a b => b.1 < a.1 + 100) (t0, r0) rest)
    (hmax : ∀ x ∈ rest, x.1 < t0 + 400) :
    debounceRun 100 400 ((t0, r0) :: rest) = [(rest.getLastD (t0, r0)).2] := by
  unfold debounceRun
  rw [List.foldl_cons]
  have hfirst : debounceSubmit 100 400 debounceInit t0 r0
      = (⟨some r0, some (t0 + 100), some (t0 + 400)⟩, []) := rfl
  simp only [hfirst]
  rw [List.append_nil]
  rw [debounce_burst (t0 + 400) rest t0 r0 [] hchain hmax]
  rfl

/-- C3 witness: three rapid submissions at times 0, 90, 150 with distinct
parameter records dispatch exactly the third record. -/
theorem c3_witness :
    debounceRun 100 400
        [(0, RenderParams.mk 640 480 (-1/2) 0 (3/2) "#FFFFFF" "#000000" (some (1/5))),
         (90, RenderParams.mk 640 480 (-1/2) 0 2 "#FFFFFF" "#000000" (some (1/5))),
         (150, RenderParams.mk 800 600 (1/4) (1/2) 30 "#FF0000" "#0000FF" (some 2))]
      = [RenderParams.mk 800 600 (1/4) (1/2) 30 "#FF0000" "#0000FF" (some 2)] :=
  c3_debounce_coalesces_to_last 0 (RenderParams.mk 640 480 (-1/2) 0 (3/2) "#FFFFFF" "#000000" (some (1/5)))
    [(90, RenderParams.mk 640 480 (-1/2) 0 2 "#FFFFFF" "#000000" (some (1/5))),
     (150, RenderParams.mk 800 600 (1/4) (1/2) 30 "#FF0000" "#0000FF" (some 2))]
    (List.Chain.cons (by omega) (List.Chain.cons (by omega) List.Chain.nil))
    (by intro x hx; fin_cases hx <;> norm_num)

/-! ## Hue normalisation arithmetic -/

/-- The value of the source's `((x % 360) + 360) % 360` normalisation on a
finite number. -/
def wrapQ (q : ℚ) : ℚ := jsModQ (jsModQ q 360 + 360) 360

/-- The source's double-mod chain on a finite value computes `wrapQ`. -/
theorem jsModChain_some (q : ℚ) :
    jsMod (jAdd (jsMod (some q) (some 360)) (some 360)) (some 360) = some (wrapQ q) := by
  norm_num [jsMod, jAdd, wrapQ]

theorem jsModQ_nonneg_bounds (a : ℚ) (ha : 0 ≤ a) :
    0 ≤ jsModQ a 360 ∧ jsModQ a 360 < 360 ∧ ∃ k : ℤ, jsModQ a 360 = a - 360 * k := by
  have hq : 0 ≤ a / 360 := by positivity
  rw [jsModQ, qTrunc, if_pos hq]
  have h1 : (360 : ℚ) * ⌊a / 360⌋ ≤ a := by
    have h := mul_le_mul_of_nonneg_left (Int.floor_le (a / 360)) (by norm_num : (0:ℚ) ≤ 360)
    calc (360 : ℚ) * ⌊a / 360⌋ ≤ 360 * (a / 360) := h
      _ = a := by field_simp
  have h2 : a < 360 * ⌊a / 360⌋ + 360 := by
    have h := mul_lt_mul_of_pos_left (Int.lt_floor_add_one (a / 360)) (by norm_num : (0:ℚ) < 360)
    calc a = 360 * (a / 360) := by field_simp
      _ < 360 * ((⌊a / 360⌋ : ℚ) + 1) := h
      _ = 360 * ⌊a / 360⌋ + 360 := by ring
  exact ⟨by linarith, by linarith, ⟨⌊a / 360⌋, rfl⟩⟩

theorem jsModQ360_bounds (a : ℚ) :
    -360 < jsModQ a 360 ∧ jsModQ a 360 < 360 ∧ ∃ k : ℤ, jsModQ a 360 = a - 360 * k := by
  by_cases hq : 0 ≤ a / 360
  · have hcancel : a / 360 * 360 = a := div_mul_cancel₀ a (by norm_num)
    have ha : 0 ≤ a := by nlinarith [hq, hcancel]
    obtain ⟨h0, h1, hk⟩ := jsModQ_nonneg_bounds a ha
    exact ⟨by linarith, h1, hk⟩
  · push_neg at hq
    rw [jsModQ, qTrunc, if_neg (not_le.mpr hq)]
    have h1 : a ≤ (360 : ℚ) * ⌈a / 360⌉ := by
      have h := mul_le_mul_of_nonneg_left (Int.le_ceil (a / 360)) (by norm_num : (0:ℚ) ≤ 360)
      calc a = 360 * (a / 360) := by field_simp
        _ ≤ 360 * ⌈a / 360⌉ := h
    have h2 : (360 : ℚ) * ⌈a / 360⌉ - 360 < a := by
      have h := mul_lt_mul_of_pos_left (Int.ceil_lt_add_one (a / 360)) (by norm_num : (0:ℚ) < 360)
      have h3 : (360 : ℚ) * ⌈a / 360⌉ < 360 * (a / 360) + 360 := by
        calc (360 : ℚ) * ⌈a / 360⌉ < 360 * (a / 360 + 1) := h
          _ = 360 * (a / 360) + 360 := by ring
      have h4 : (360 : ℚ) * (a / 360) = a := by field_simp
      linarith
    exact ⟨by linarith, by linarith, ⟨⌈a / 360⌉, rfl⟩⟩

theorem wrapQ_spec (q : ℚ) :
    0 ≤ wrapQ q ∧ wrapQ q < 360 ∧ ∃ k : ℤ, wrapQ q = q - 360 * k := by
  obtain ⟨hl, hr, k1, hk1⟩ := jsModQ360_bounds q
  have hnn : 0 ≤ jsModQ q 360 + 360 := by linarith
  obtain ⟨h0, h360, k2, hk2⟩ := jsModQ_nonneg_bounds (jsModQ q 360 + 360) hnn
  rw [wrapQ]
  refine ⟨h0, h360, ⟨k1 + k2 - 1, ?_⟩⟩
  rw [hk2, hk1]
  push_cast
  ring

/-- Two values in `[0,360)` congruent modulo 360 are equal. -/
theorem wrap_unique (x y : ℚ) (hx0 : 0 ≤ x) (hx1 : x < 360) (hy0 : 0 ≤ y) (hy1 : y < 360)
    (k : ℤ) (h : x - y = 360 * k) : x = y := by
  have hklt : (k : ℚ) < 1 := by linarith
  have hkgt : (-1 : ℚ) < k := by linarith
  have hk0 : k = 0 := by
    have l1 : k < 1 := by exact_mod_cast hklt
    have l2 : -1 < k := by exact_mod_cast hkgt
    omega
  rw [hk0] at h
  push_cast at h
  linarith

theorem wrapQ_eq_self (q : ℚ) (h0 : 0 ≤ q) (h1 : q < 360) : wrapQ q = q := by
  obtain ⟨w0, w1, k, hk⟩ := wrapQ_spec q
  exact wrap_unique _ _ w0 w1 h0 h1 (-k) (by rw [hk]; push_cast; ring)

theorem wrapQ_add_360 (q : ℚ) (h0 : 0 ≤ q) (h1 : q < 360) : wrapQ (q + 360) = q := by
  obtain ⟨w0, w1, k, hk⟩ := wrapQ_spec (q + 360)
  exact wrap_unique _ _ w0 w1 h0 h1 (-k + 1) (by rw [hk]; push_cast; ring)

/-- The affine path start `interpolateHue` blends from, after
normalisation and shorter-arc wrapping. -/
def hueStart (h1 h2 : ℚ) : ℚ :=
  if 180 < |wrapQ h2 - wrapQ h1| then
    if 0 < wrapQ h2 - wrapQ h1 then wrapQ h1 + 360 else wrapQ h1
  else wrapQ h1

/-- The affine path end `interpolateHue` blends toward. -/
def hueEnd (h1 h2 : ℚ) : ℚ :=
  if 180 < |wrapQ h2 - wrapQ h1| then
    if 0 < wrapQ h2 - wrapQ h1 then wrapQ h2 else wrapQ h2 + 360
  else wrapQ h2

/-- On finite inputs, `interpolateHue` is the re-normalised affine blend
between `hueStart` and `hueEnd`. -/
theorem interpolateHue_some (h1 h2 t : ℚ) :
    interpolateHue (some h1) (some h2) (some t)
      = some (wrapQ (hueStart h1 h2 + (hueEnd h1 h2 - hueStart h1 h2) * t)) := by
  unfold interpolateHue hueStart hueEnd
  rw [jsModChain_some, jsModChain_some]
  simp only [jSub_some, jAbs_some, jLt_some, decide_eq_true_eq]
  by_cases habs : 180 < |wrapQ h2 - wrapQ h1|
  · rw [if_pos habs, if_pos habs, if_pos habs]
    by_cases hpos : 0 < wrapQ h2 - wrapQ h1
    · rw [if_pos hpos, if_pos hpos, if_pos hpos]
      simp only [jAdd_some, jSub_some, jMul_some]
      rw [jsModChain_some]
    · rw [if_neg hpos, if_neg hpos, if_neg hpos]
      simp only [jAdd_some, jSub_some, jMul_some]
      rw [jsModChain_some]
  · rw [if_neg habs, if_neg habs, if_neg habs]
    simp only [jAdd_some, jSub_some, jMul_some]
    rw [jsModChain_some]

/-- C9: for all finite hues `h1`, `h2`, `interpolateHue` blends along an
affine path `a + b*t` (then re-normalised into `[0,360)`), where the path
start is congruent to `h1` and the path end `a + b` congruent to `h2`
modulo 360, and the total signed travel `b` satisfies `|b| ≤ 180` — the
shorter arc; monotonicity along the arc is the affinity of `t ↦ a + b*t`.
Every returned value lies in `[0,360)`. -/
theorem c9_interpolateHue_shorter_arc (h1 h2 : ℚ) :
    ∃ a b : ℚ, |b| ≤ 180 ∧
      (∃ m : ℤ, a = h1 + 360 * m) ∧
      (∃ n : ℤ, a + b = h2 + 360 * n) ∧
      ∀ t : ℚ, interpolateHue (some h1) (some h2) (some t) = some (wrapQ (a + b * t)) ∧
        0 ≤ wrapQ (a + b * t) ∧ wrapQ (a + b * t) < 360 := by
  obtain ⟨hu0, hu1, ku, hku⟩ := wrapQ_spec h1
  obtain ⟨hv0, hv1, kv, hkv⟩ := wrapQ_spec h2
  refine ⟨hueStart h1 h2, hueEnd h1 h2 - hueStart h1 h2, ?_, ?_, ?_, ?_⟩
  · unfold hueStart hueEnd
    by_cases habs : 180 < |wrapQ h2 - wrapQ h1|
    · by_cases hpos : 0 < wrapQ h2 - wrapQ h1
      · rw [if_pos habs, if_pos habs, if_pos hpos, if_pos hpos]
        rw [abs_of_pos hpos] at habs
        rw [abs_le]
        constructor <;> linarith
      · rw [if_pos habs, if_pos habs, if_neg hpos, if_neg hpos]
        push_neg at hpos
        rw [abs_of_nonpos (by linarith)] at habs
        rw [abs_le]
        constructor <;> linarith
    · rw [if_neg habs, if_neg habs]
      push_neg at habs
      rw [abs_le] at habs ⊢
      exact ⟨by linarith [habs.1], by linarith [habs.2]⟩
  · unfold hueStart
    by_cases habs : 180 < |wrapQ h2 - wrapQ h1|
    · by_cases hpos : 0 < wrapQ h2 - wrapQ h1
      · rw [if_pos habs, if_pos hpos]
        exact ⟨-ku + 1, by rw [hku]; push_cast; ring⟩
      · rw [if_pos habs, if_neg hpos]
        exact ⟨-ku, by rw [hku]; push_cast; ring⟩
    · rw [if_neg habs]
      exact ⟨-ku, by rw [hku]; push_cast; ring⟩
  · unfold hueStart hueEnd
    by_cases habs : 180 < |wrapQ h2 - wrapQ h1|
    · by_cases hpos : 0 < wrapQ h2 - wrapQ h1
      · rw [if_pos habs, if_pos habs, if_pos hpos, if_pos hpos]
        exact ⟨-kv, by rw [hkv]; push_cast; ring⟩
      · rw [if_pos habs, if_pos habs, if_neg hpos, if_neg hpos]
        exact ⟨-kv + 1, by rw [hkv]; push_cast; ring⟩
    · rw [if_neg habs, if_neg habs]
      exact ⟨-kv, by rw [hkv]; push_cast; ring⟩
  · intro t
    obtain ⟨w0, w1, _⟩ := wrapQ_spec (hueStart h1 h2 + (hueEnd h1 h2 - hueStart h1 h2) * t)
    exact ⟨interpolateHue_some h1 h2 t, w0, w1⟩

/-! ## Hex parsing and the HSV round trip -/

/-- A valid 6-digit RGB hex color string (an optional leading `#` removed
the way `replace` does), whose three channels are `r`, `g`, `b`. -/
def ValidHexColor (s : String) (r g b : ℕ) : Prop :=
  ∃ c1 c2 c3 c4 c5 c6 d1 d2 d3 d4 d5 d6,
    removeFirstHash s.toList = [c1, c2, c3, c4, c5, c6] ∧
    hexDigitVal? c1 = some d1 ∧ hexDigitVal? c2 = some d2 ∧
    hexDigitVal? c3 = some d3 ∧ hexDigitVal? c4 = some d4 ∧
    hexDigitVal? c5 = some d5 ∧ hexDigitVal? c6 = some d6 ∧
    r = 16 * d1 + d2 ∧ g = 16 * d3 + d4 ∧ b = 16 * d5 + d6

theorem hexDigitVal?_le (c : Char) (d : ℕ) (h : hexDigitVal? c = some d) : d ≤ 15 := by
  unfold hexDigitVal? at h
  split_ifs at h with h1 h2 h3 <;> injection h with h <;> subst h
  · obtain ⟨hl, hr⟩ := h1
    rw [Char.le_def] at hl hr
    have hub : c.toNat ≤ 57 := hr
    have hlb : 48 ≤ c.toNat := hl
    have h0 : ('0').toNat = 48 := rfl
    omega
  · obtain ⟨hl, hr⟩ := h2
    rw [Char.le_def] at hl hr
    have hub : c.toNat ≤ 102 := hr
    have hlb : 97 ≤ c.toNat := hl
    have h0 : ('a').toNat = 97 := rfl
    omega
  · obtain ⟨hl, hr⟩ := h3
    rw [Char.le_def] at hl hr
    have hub : c.toNat ≤ 70 := hr
    have hlb : 65 ≤ c.toNat := hl
    have h0 : ('A').toNat = 65 := rfl
    omega

/-- Collapse a repeated condition in nested ifs. -/
theorem ite_idem_else {α : Type} {c : Prop} [Decidable c] (a b d : α) :
    (if c then a else if c then b else d) = if c then a else d := by
  split_ifs <;> rfl

theorem parseIntHex_pair (c1 c2 : Char) (d1 d2 : ℕ)
    (h1 : hexDigitVal? c1 = some d1) (h2 : hexDigitVal? c2 = some d2) :
    parseIntHex [c1, c2] = some ((16 * d1 + d2 : ℕ) : ℚ) := by
  simp [parseIntHex, hexPrefixVal, h1, h2]

/-- The hue `hexToHsv` computes, over exact channel values in `[0,1]`. -/
def hueOf (r g b : ℚ) : ℚ :=
  let mx := max r (max g b)
  let mn := min r (min g b)
  let diff := mx - mn
  if diff = 0 then 0
  else if mx = r then
    if g < b then 60 * ((g - b) / diff + 6) else 60 * ((g - b) / diff + 0)
  else if mx = g then 60 * ((b - r) / diff + 2)
  else 60 * ((r - g) / diff + 4)

/-- The saturation `hexToHsv` computes. -/
def satOf (r g b : ℚ) : ℚ :=
  if max r (max g b) = 0 then 0
  else (max r (max g b) - min r (min g b)) / max r (max g b)

/-- The value `hexToHsv` computes. -/
def valOf (r g b : ℚ) : ℚ := max r (max g b)

/-- On a valid hex color, `hexToHsv` returns the finite exact HSV triple. -/
theorem hexToHsv_valid (s : String) (r g b : ℕ) (h : ValidHexColor s r g b) :
    hexToHsv s = ⟨some (hueOf ((r : ℚ) / 255) ((g : ℚ) / 255) ((b : ℚ) / 255)),
      some (satOf ((r : ℚ) / 255) ((g : ℚ) / 255) ((b : ℚ) / 255)),
      some (valOf ((r : ℚ) / 255) ((g : ℚ) / 255) ((b : ℚ) / 255))⟩ := by
  obtain ⟨c1, c2, c3, c4, c5, c6, d1, d2, d3, d4, d5, d6,
    hcs, h1, h2, h3, h4, h5, h6, hr, hg, hb⟩ := h
  subst hr hg hb
  unfold hexToHsv
  rw [hcs]
  simp only [List.take, List.drop]
  simp only [parseIntHex_pair c1 c2 d1 d2 h1 h2, parseIntHex_pair c3 c4 d3 d4 h3 h4,
    parseIntHex_pair c5 c6 d5 d6 h5 h6]
  have hs255 : ((255 : ℚ)) ≠ 0 := by norm_num
  simp only [jDiv_some, if_neg hs255]
  simp only [jMax_some, jMin_some, jSub_some, jEq_some, jLt_some, decide_eq_true_eq]
  set r' := ((16 * d1 + d2 : ℕ) : ℚ) / 255 with hrq
  set g' := ((16 * d3 + d4 : ℕ) : ℚ) / 255 with hgq
  set b' := ((16 * d5 + d6 : ℕ) : ℚ) / 255 with hbq
  simp only [hueOf, satOf, valOf]
  congr 1
  · by_cases hA : max r' (max g' b') - min r' (min g' b') = 0
    · rw [if_pos hA, if_pos hA]
    · rw [if_neg hA, if_neg hA]
      by_cases hB : max r' (max g' b') = r'
      · rw [if_pos hB, if_pos hB]
        by_cases hC : g' < b'
        · rw [if_pos hC, if_pos hC, jDiv_some, if_neg hA]
          simp only [jAdd_some, jMul_some]
        · rw [if_neg hC, if_neg hC, jDiv_some, if_neg hA]
          simp only [jAdd_some, jMul_some]
      · rw [if_neg hB, if_neg hB]
        by_cases hD : max r' (max g' b') = g'
        · rw [if_pos hD, if_pos hD, jDiv_some, if_neg hA]
          simp only [jAdd_some, jMul_some]
        · rw [if_neg hD, if_neg hD, jDiv_some, if_neg hA]
          simp only [jAdd_some, jMul_some]
  · by_cases hm0 : max r' (max g' b') = 0
    · rw [if_pos hm0, if_pos hm0]
    · rw [if_neg hm0, if_neg hm0, jDiv_some, if_neg hm0]
/-- The sector selection of `hsvToRgb` over exact rationals (proof-layer
restatement of the chromatic branch). -/
def hsvSectorRgb (h s v : ℚ) : ℚ × ℚ × ℚ :=
  let i : ℚ := (⌊h / 60⌋ : ℤ)
  let f := h / 60 - i
  let p := v * (1 - s)
  let q := v * (1 - s * f)
  let t := v * (1 - s * (1 - f))
  let i6 := jsModQ i 6
  if i6 = 0 then (v, t, p)
  else if i6 = 1 then (q, v, p)
  else if i6 = 2 then (p, v, t)
  else if i6 = 3 then (p, q, v)
  else if i6 = 4 then (t, p, v)
  else if i6 = 5 then (v, p, q)
  else (0, 0, 0)

set_option maxHeartbeats 1000000 in
/-- `hsvToRgb` on finite chromatic input, as exact rational arithmetic. -/
theorem hsvToRgb_some (h s v : ℚ) (hs0 : s ≠ 0) :
    hsvToRgb (some h) (some s) (some v) =
      Rgb.mk (some (⌊(hsvSectorRgb h s v).1 * 255 + 1/2⌋ : ℚ))
        (some (⌊(hsvSectorRgb h s v).2.1 * 255 + 1/2⌋ : ℚ))
        (some (⌊(hsvSectorRgb h s v).2.2 * 255 + 1/2⌋ : ℚ)) := by
  unfold hsvToRgb hsvSectorRgb
  have h60 : ((60 : ℚ)) ≠ 0 := by norm_num
  have h6 : ((6 : ℚ)) ≠ 0 := by norm_num
  simp only [jEq_some, decide_eq_true_eq, if_neg hs0, jDiv_some, if_neg h60, jFloor_some,
    jSub_some, jMul_some, jsMod_some, if_neg h6, jRound_some]
  split_ifs <;> rfl

theorem jsModQ_small (k : ℚ) (h0 : 0 ≤ k) (h1 : k < 6) : jsModQ k 6 = k := by
  rw [jsModQ, qTrunc, if_pos (by positivity)]
  have hfl : ⌊k / 6⌋ = 0 := by
    rw [Int.floor_eq_zero_iff]
    constructor
    · positivity
    · rw [div_lt_one (by norm_num : (0:ℚ) < 6)]
      exact h1
  rw [hfl]
  norm_num

theorem floor_cast_add_half (n : ℕ) : ⌊(n : ℚ) + 1/2⌋ = (n : ℤ) := by
  rw [show ((n : ℚ)) = (((n : ℤ) : ℚ)) by push_cast; ring, Int.floor_int_add]
  norm_num

theorem round_channel_eq (x : ℚ) (n : ℕ) (hx : x * 255 = (n : ℚ)) :
    (some (⌊x * 255 + 1/2⌋ : ℚ) : JNum) = some ((n : ℕ) : ℚ) := by
  rw [hx, floor_cast_add_half]
  norm_num

theorem hsvSectorRgb_at0 (h s v : ℚ) (hk : ⌊h / 60⌋ = 0) :
    hsvSectorRgb h s v = (v, v * (1 - s * (1 - (h / 60 - 0))), v * (1 - s)) := by
  simp only [hsvSectorRgb]
  rw [hk]
  norm_num [jsModQ_small]

theorem hsvSectorRgb_at1 (h s v : ℚ) (hk : ⌊h / 60⌋ = 1) :
    hsvSectorRgb h s v = (v * (1 - s * (h / 60 - 1)), v, v * (1 - s)) := by
  simp only [hsvSectorRgb]
  rw [hk]
  norm_num [jsModQ_small]

theorem hsvSectorRgb_at2 (h s v : ℚ) (hk : ⌊h / 60⌋ = 2) :
    hsvSectorRgb h s v = (v * (1 - s), v, v * (1 - s * (1 - (h / 60 - 2)))) := by
  simp only [hsvSectorRgb]
  rw [hk]
  norm_num [jsModQ_small]

theorem hsvSectorRgb_at3 (h s v : ℚ) (hk : ⌊h / 60⌋ = 3) :
    hsvSectorRgb h s v = (v * (1 - s), v * (1 - s * (h / 60 - 3)), v) := by
  simp only [hsvSectorRgb]
  rw [hk]
  norm_num [jsModQ_small]

theorem hsvSectorRgb_at4 (h s v : ℚ) (hk : ⌊h / 60⌋ = 4) :
    hsvSectorRgb h s v = (v * (1 - s * (1 - (h / 60 - 4))), v * (1 - s), v) := by
  simp only [hsvSectorRgb]
  rw [hk]
  norm_num [jsModQ_small]

theorem hsvSectorRgb_at5 (h s v : ℚ) (hk : ⌊h / 60⌋ = 5) :
    hsvSectorRgb h s v = (v, v * (1 - s), v * (1 - s * (h / 60 - 5))) := by
  simp only [hsvSectorRgb]
  rw [hk]
  norm_num [jsModQ_small]

set_option maxHeartbeats 2000000 in
/-- Exact HSV round trip over the rationals: converting exact channel
values through `hexToHsv`'s arithmetic and back through `hsvToRgb`
reproduces each channel exactly. -/
theorem roundTrip_core (rn gn bn : ℕ) :
    hsvToRgb (some (hueOf ((rn : ℚ) / 255) ((gn : ℚ) / 255) ((bn : ℚ) / 255)))
      (some (satOf ((rn : ℚ) / 255) ((gn : ℚ) / 255) ((bn : ℚ) / 255)))
      (some (valOf ((rn : ℚ) / 255) ((gn : ℚ) / 255) ((bn : ℚ) / 255)))
      = ⟨some ((rn : ℕ) : ℚ), some ((gn : ℕ) : ℚ), some ((bn : ℕ) : ℚ)⟩ := by
  set r' := ((rn : ℚ)) / 255 with hrdef
  set g' := ((gn : ℚ)) / 255 with hgdef
  set b' := ((bn : ℚ)) / 255 with hbdef
  have hr0 : 0 ≤ r' := by rw [hrdef]; positivity
  have hg0 : 0 ≤ g' := by rw [hgdef]; positivity
  have hb0 : 0 ≤ b' := by rw [hbdef]; positivity
  have hrmul : r' * 255 = (rn : ℚ) := by rw [hrdef]; field_simp <;> try ring
  have hgmul : g' * 255 = (gn : ℚ) := by rw [hgdef]; field_simp <;> try ring
  have hbmul : b' * 255 = (bn : ℚ) := by rw [hbdef]; field_simp <;> try ring
  have hcast255 : ∀ x y : ℕ, (x : ℚ) / 255 = (y : ℚ) / 255 → x = y := by
    intro x y hxy
    have h2 : (x : ℚ) = (y : ℚ) := by
      have h3 := congrArg (fun z : ℚ => z * 255) hxy
      simpa [div_mul_cancel₀] using h3
    exact_mod_cast h2
  have hval : valOf r' g' b' = max r' (max g' b') := rfl
  by_cases hA : max r' (max g' b') - min r' (min g' b') = 0
  · have hrmax : r' ≤ max r' (max g' b') := le_max_left _ _
    have hgmax : g' ≤ max r' (max g' b') := le_trans (le_max_left _ _) (le_max_right _ _)
    have hbmax : b' ≤ max r' (max g' b') := le_trans (le_max_right _ _) (le_max_right _ _)
    have hrmin : min r' (min g' b') ≤ r' := min_le_left _ _
    have hgmin : min r' (min g' b') ≤ g' := le_trans (min_le_right _ _) (min_le_left _ _)
    have hbmin : min r' (min g' b') ≤ b' := le_trans (min_le_right _ _) (min_le_right _ _)
    have hrg : r' = g' := by linarith
    have hrb : r' = b' := by linarith
    have hvr : max r' (max g' b') = r' := le_antisymm (by linarith) hrmax
    have hs0 : satOf r' g' b' = 0 := by
      unfold satOf
      split_ifs with h0
      · rfl
      · rw [hA, zero_div]
    rw [hs0]
    unfold hsvToRgb
    simp only [jEq_some, decide_eq_true_eq]
    rw [if_pos trivial]
    rw [hval, hvr]
    simp only [jMul_some, jRound_some, hrmul]
    have hgrn : gn = rn := hcast255 gn rn (by rw [← hgdef, ← hrdef]; exact hrg.symm)
    have hbrn : bn = rn := hcast255 bn rn (by rw [← hbdef, ← hrdef]; exact hrb.symm)
    subst hgrn hbrn
    rw [floor_cast_add_half]
    norm_num
  · have hmn0 : 0 ≤ min r' (min g' b') := le_min hr0 (le_min hg0 hb0)
    have hminmax : min r' (min g' b') ≤ max r' (max g' b') :=
      le_trans (min_le_left _ _) (le_max_left _ _)
    have hdpos0 : 0 < max r' (max g' b') - min r' (min g' b') :=
      lt_of_le_of_ne (by linarith) (Ne.symm hA)
    have hmxpos : 0 < max r' (max g' b') := by linarith
    have hs_eq : satOf r' g' b' = (max r' (max g' b') - min r' (min g' b')) / max r' (max g' b') := by
      unfold satOf
      rw [if_neg (ne_of_gt hmxpos)]
    have hsne : satOf r' g' b' ≠ 0 := by
      rw [hs_eq]
      exact div_ne_zero hA (ne_of_gt hmxpos)
    rw [hsvToRgb_some _ _ _ hsne]
    by_cases hBr : max r' (max g' b') = r'
    · have hgler : g' ≤ r' := by
        rw [← hBr]; exact le_trans (le_max_left _ _) (le_max_right _ _)
      have hbler : b' ≤ r' := by
        rw [← hBr]; exact le_trans (le_max_right _ _) (le_max_right _ _)
      have hrne : r' ≠ 0 := by rw [← hBr]; exact ne_of_gt hmxpos
      by_cases hC : g' < b'
      · -- max is r, g < b: sector 5
        have hmn : min r' (min g' b') = g' := by
          rw [min_eq_left (le_of_lt hC), min_eq_right hgler]
        have hdne : r' - g' ≠ 0 := fun h0 => hA (by rw [hBr, hmn, h0])
        have hdpos : 0 < r' - g' := lt_of_le_of_ne (by linarith) (Ne.symm hdne)
        have hhue : hueOf r' g' b' = 60 * ((g' - b') / (r' - g') + 6) := by
          simp only [hueOf]
          rw [if_neg hA, if_pos hBr, if_pos hC, hBr, hmn]
        have hdiv : hueOf r' g' b' / 60 = (g' - b') / (r' - g') + 6 := by
          rw [hhue, mul_div_cancel_left₀ _ (by norm_num : (60 : ℚ) ≠ 0)]
        have hub : (g' - b') / (r' - g') < 0 := div_neg_of_neg_of_pos (by linarith) hdpos
        have hlb : -1 ≤ (g' - b') / (r' - g') := by
          rw [le_div_iff₀ hdpos]
          linarith
        have hfl : ⌊hueOf r' g' b' / 60⌋ = 5 := by
          rw [hdiv, show ((6 : ℚ)) = ((6 : ℤ) : ℚ) by norm_num, Int.floor_add_int]
          have hm1 : ⌊(g' - b') / (r' - g')⌋ = -1 := by
            rw [Int.floor_eq_iff]
            constructor
            · push_cast
              linarith
            · push_cast
              linarith
          rw [hm1]
          norm_num
        rw [hsvSectorRgb_at5 _ _ _ hfl]
        congr 1
        · exact round_channel_eq _ _ (by rw [hval, hBr]; exact hrmul)
        · apply round_channel_eq
          rw [hval, hs_eq, hBr, hmn, ← hgmul]
          field_simp <;> try ring
        · apply round_channel_eq
          rw [hval, hs_eq, hdiv, hBr, hmn, ← hbmul]
          field_simp <;> try ring
      · -- max is r, g >= b
        have hbleg : b' ≤ g' := le_of_not_lt hC
        have hmn : min r' (min g' b') = b' := by
          rw [min_eq_right hbleg, min_eq_right hbler]
        have hdne : r' - b' ≠ 0 := fun h0 => hA (by rw [hBr, hmn, h0])
        have hdpos : 0 < r' - b' := lt_of_le_of_ne (by linarith) (Ne.symm hdne)
        have hhue : hueOf r' g' b' = 60 * ((g' - b') / (r' - b') + 0) := by
          simp only [hueOf]
          rw [if_neg hA, if_pos hBr, if_neg hC, hBr, hmn]
        have hdiv : hueOf r' g' b' / 60 = (g' - b') / (r' - b') + 0 := by
          rw [hhue, mul_div_cancel_left₀ _ (by norm_num : (60 : ℚ) ≠ 0)]
        by_cases hgr : g' = r'
        · -- ratio 1: sector 1 with f = 0
          have hfl : ⌊hueOf r' g' b' / 60⌋ = 1 := by
            rw [hdiv]
            have hone : (g' - b') / (r' - b') = 1 := by
              rw [hgr]
              field_simp <;> try ring
            rw [hone]
            norm_num
          rw [hsvSectorRgb_at1 _ _ _ hfl]
          congr 1
          · apply round_channel_eq
            rw [hval, hs_eq, hdiv, hBr, hmn, hgr, ← hrmul]
            field_simp <;> try ring
          · apply round_channel_eq
            rw [hval, hBr, ← hgr]
            exact hgmul
          · apply round_channel_eq
            rw [hval, hs_eq, hBr, hmn, ← hbmul]
            field_simp <;> try ring
        · -- g < r: sector 0
          have hgltr : g' < r' := lt_of_le_of_ne hgler hgr
          have hfl : ⌊hueOf r' g' b' / 60⌋ = 0 := by
            rw [hdiv, add_zero, Int.floor_eq_zero_iff]
            constructor
            · exact div_nonneg (by linarith) (le_of_lt hdpos)
            · rw [div_lt_one hdpos]
              linarith
          rw [hsvSectorRgb_at0 _ _ _ hfl]
          congr 1
          · exact round_channel_eq _ _ (by rw [hval, hBr]; exact hrmul)
          · apply round_channel_eq
            rw [hval, hs_eq, hdiv, hBr, hmn, ← hgmul]
            field_simp <;> try ring
          · apply round_channel_eq
            rw [hval, hs_eq, hBr, hmn, ← hbmul]
            field_simp <;> try ring
    · by_cases hD : max r' (max g' b') = g'
      · -- max is g
        have hrleg : r' ≤ g' := by rw [← hD]; exact le_max_left _ _
        have hbleg : b' ≤ g' := by
          rw [← hD]; exact le_trans (le_max_right _ _) (le_max_right _ _)
        have hrltg : r' < g' := lt_of_le_of_ne hrleg (fun he => hBr (hD.trans he.symm))
        have hgne : g' ≠ 0 := by rw [← hD]; exact ne_of_gt hmxpos
        by_cases hbg : b' = g'
        · -- ratio 1: sector 3 with f = 0
          have hrltb : r' < b' := by rw [hbg]; exact hrltg
          have hmn : min r' (min g' b') = r' := by
            rw [hbg, min_self, min_eq_left (le_of_lt hrltg)]
          have hdne : g' - r' ≠ 0 := fun h0 => hA (by rw [hD, hmn, h0])
          have hdpos : 0 < g' - r' := by
            rcases lt_or_eq_of_le (by linarith : 0 ≤ g' - r') with h | h
            · exact h
            · exact absurd h.symm hdne
          have hhue : hueOf r' g' b' = 60 * ((b' - r') / (g' - r') + 2) := by
            simp only [hueOf]
            rw [if_neg hA, if_neg hBr, if_pos hD, hD, hmn]
          have hdiv : hueOf r' g' b' / 60 = (b' - r') / (g' - r') + 2 := by
            rw [hhue, mul_div_cancel_left₀ _ (by norm_num : (60 : ℚ) ≠ 0)]
          have hfl : ⌊hueOf r' g' b' / 60⌋ = 3 := by
            rw [hdiv]
            have hone : (b' - r') / (g' - r') = 1 := by
              rw [hbg]
              field_simp <;> try ring
            rw [hone]
            norm_num
          rw [hsvSectorRgb_at3 _ _ _ hfl]
          congr 1
          · apply round_channel_eq
            rw [hval, hs_eq, hD, hmn, ← hrmul]
            field_simp <;> try ring
          · apply round_channel_eq
            rw [hval, hs_eq, hdiv, hD, hmn, hbg, ← hgmul]
            field_simp <;> try ring
          · apply round_channel_eq
            rw [hval, hD, ← hbmul, hbg]
        · have hbltg : b' < g' := lt_of_le_of_ne hbleg hbg
          by_cases hrb2 : r' ≤ b'
          · -- sector 2
            have hmn : min r' (min g' b') = r' := by
              rw [min_eq_right (le_of_lt hbltg), min_eq_left hrb2]
            have hdne : g' - r' ≠ 0 := fun h0 => hA (by rw [hD, hmn, h0])
            have hdpos : 0 < g' - r' := by linarith
            have hhue : hueOf r' g' b' = 60 * ((b' - r') / (g' - r') + 2) := by
              simp only [hueOf]
              rw [if_neg hA, if_neg hBr, if_pos hD, hD, hmn]
            have hdiv : hueOf r' g' b' / 60 = (b' - r') / (g' - r') + 2 := by
              rw [hhue, mul_div_cancel_left₀ _ (by norm_num : (60 : ℚ) ≠ 0)]
            have hfl : ⌊hueOf r' g' b' / 60⌋ = 2 := by
              rw [hdiv, show ((2 : ℚ)) = ((2 : ℤ) : ℚ) by norm_num, Int.floor_add_int]
              have h0 : ⌊(b' - r') / (g' - r')⌋ = 0 := by
                rw [Int.floor_eq_zero_iff]
                constructor
                · exact div_nonneg (by linarith) (le_of_lt hdpos)
                · rw [div_lt_one hdpos]
                  linarith
              rw [h0]
              norm_num
            rw [hsvSectorRgb_at2 _ _ _ hfl]
            congr 1
            · apply round_channel_eq
              rw [hval, hs_eq, hD, hmn, ← hrmul]
              field_simp <;> try ring
            · apply round_channel_eq
              rw [hval, hD]
              exact hgmul
            · apply round_channel_eq
              rw [hval, hs_eq, hdiv, hD, hmn, ← hbmul]
              field_simp <;> try ring
          · -- sector 1
            push_neg at hrb2
            have hmn : min r' (min g' b') = b' := by
              rw [min_eq_right (le_of_lt hbltg), min_eq_right (le_of_lt hrb2)]
            have hdne : g' - b' ≠ 0 := fun h0 => hA (by rw [hD, hmn, h0])
            have hdpos : 0 < g' - b' := by linarith
            have hhue : hueOf r' g' b' = 60 * ((b' - r') / (g' - b') + 2) := by
              simp only [hueOf]
              rw [if_neg hA, if_neg hBr, if_pos hD, hD, hmn]
            have hdiv : hueOf r' g' b' / 60 = (b' - r') / (g' - b') + 2 := by
              rw [hhue, mul_div_cancel_left₀ _ (by norm_num : (60 : ℚ) ≠ 0)]
            have hfl : ⌊hueOf r' g' b' / 60⌋ = 1 := by
              rw [hdiv, show ((2 : ℚ)) = ((2 : ℤ) : ℚ) by norm_num, Int.floor_add_int]
              have hm1 : ⌊(b' - r') / (g' - b')⌋ = -1 := by
                rw [Int.floor_eq_iff]
                constructor
                · push_cast
                  rw [le_div_iff₀ hdpos]
                  linarith
                · push_cast
                  have := div_neg_of_neg_of_pos (by linarith : b' - r' < 0) hdpos
                  linarith
              rw [hm1]
              norm_num
            rw [hsvSectorRgb_at1 _ _ _ hfl]
            congr 1
            · apply round_channel_eq
              rw [hval, hs_eq, hdiv, hD, hmn, ← hrmul]
              field_simp <;> try ring
            · apply round_channel_eq
              rw [hval, hD]
              exact hgmul
            · apply round_channel_eq
              rw [hval, hs_eq, hD, hmn, ← hbmul]
              field_simp <;> try ring
      · -- max is b
        have hDb : max r' (max g' b') = b' := by
          rcases max_choice r' (max g' b') with h | h
          · exact absurd h hBr
          · rcases max_choice g' b' with h2 | h2
            · exact absurd (by rw [h, h2]) hD
            · rw [h, h2]
        have hrleb : r' ≤ b' := by rw [← hDb]; exact le_max_left _ _
        have hgleb : g' ≤ b' := by
          rw [← hDb]; exact le_trans (le_max_left _ _) (le_max_right _ _)
        have hrltb : r' < b' := lt_of_le_of_ne hrleb (fun he => hBr (hDb.trans he.symm))
        have hgltb : g' < b' := lt_of_le_of_ne hgleb (fun he => hD (hDb.trans he.symm))
        have hbne : b' ≠ 0 := by rw [← hDb]; exact ne_of_gt hmxpos
        by_cases hgr2 : g' ≤ r'
        · -- sector 4
          have hmn : min r' (min g' b') = g' := by
            rw [min_eq_left (le_of_lt hgltb), min_eq_right hgr2]
          have hdne : b' - g' ≠ 0 := fun h0 => hA (by rw [hDb, hmn, h0])
          have hdpos : 0 < b' - g' := by linarith
          have hhue : hueOf r' g' b' = 60 * ((r' - g') / (b' - g') + 4) := by
            simp only [hueOf]
            rw [if_neg hA, if_neg hBr, if_neg hD, hDb, hmn]
          have hdiv : hueOf r' g' b' / 60 = (r' - g') / (b' - g') + 4 := by
            rw [hhue, mul_div_cancel_left₀ _ (by norm_num : (60 : ℚ) ≠ 0)]
          have hfl : ⌊hueOf r' g' b' / 60⌋ = 4 := by
            rw [hdiv, show ((4 : ℚ)) = ((4 : ℤ) : ℚ) by norm_num, Int.floor_add_int]
            have h0 : ⌊(r' - g') / (b' - g')⌋ = 0 := by
              rw [Int.floor_eq_zero_iff]
              constructor
              · exact div_nonneg (by linarith) (le_of_lt hdpos)
              · rw [div_lt_one hdpos]
                linarith
            rw [h0]
            norm_num
          rw [hsvSectorRgb_at4 _ _ _ hfl]
          congr 1
          · apply round_channel_eq
            rw [hval, hs_eq, hdiv, hDb, hmn, ← hrmul]
            field_simp <;> try ring
          · apply round_channel_eq
            rw [hval, hs_eq, hDb, hmn, ← hgmul]
            field_simp <;> try ring
          · apply round_channel_eq
            rw [hval, hDb]
            exact hbmul
        · -- sector 3
          push_neg at hgr2
          have hmn : min r' (min g' b') = r' := by
            rw [min_eq_left (le_of_lt hgltb), min_eq_left (le_of_lt hgr2)]
          have hdne : b' - r' ≠ 0 := fun h0 => hA (by rw [hDb, hmn, h0])
          have hdpos : 0 < b' - r' := by linarith
          have hhue : hueOf r' g' b' = 60 * ((r' - g') / (b' - r') + 4) := by
            simp only [hueOf]
            rw [if_neg hA, if_neg hBr, if_neg hD, hDb, hmn]
          have hdiv : hueOf r' g' b' / 60 = (r' - g') / (b' - r') + 4 := by
            rw [hhue, mul_div_cancel_left₀ _ (by norm_num : (60 : ℚ) ≠ 0)]
          have hfl : ⌊hueOf r' g' b' / 60⌋ = 3 := by
            rw [hdiv, show ((4 : ℚ)) = ((4 : ℤ) : ℚ) by norm_num, Int.floor_add_int]
            have hm1 : ⌊(r' - g') / (b' - r')⌋ = -1 := by
              rw [Int.floor_eq_iff]
              constructor
              · push_cast
                rw [le_div_iff₀ hdpos]
                linarith
              · push_cast
                have := div_neg_of_neg_of_pos (by linarith : r' - g' < 0) hdpos
                linarith
            rw [hm1]
            norm_num
          rw [hsvSectorRgb_at3 _ _ _ hfl]
          congr 1
          · apply round_channel_eq
            rw [hval, hs_eq, hDb, hmn, ← hrmul]
            field_simp <;> try ring
          · apply round_channel_eq
            rw [hval, hs_eq, hdiv, hDb, hmn, ← hgmul]
            field_simp <;> try ring
          · apply round_channel_eq
            rw [hval, hDb]
            exact hbmul

/-- Round trip on a valid hex color string: exact channel reproduction. -/
theorem roundTrip_valid (s : String) (r g b : ℕ) (h : ValidHexColor s r g b) :
    hsvToRgb (hexToHsv s).h (hexToHsv s).s (hexToHsv s).v
      = ⟨some ((r : ℕ) : ℚ), some ((g : ℕ) : ℚ), some ((b : ℕ) : ℚ)⟩ := by
  rw [hexToHsv_valid s r g b h]
  exact roundTrip_core r g b

/-- C8: for every valid 6-digit RGB hex color `x`, the round trip
`hsvToRgb (hexToHsv x)` reproduces each of the three channels within ±1;
in the exact rational model the reproduction is in fact exact, so the ±1
tolerance holds with slack 0. -/
theorem c8_hex_round_trip (s : String) (r g b : ℕ) (h : ValidHexColor s r g b) :
    ∃ rr gg bb : ℚ,
      hsvToRgb (hexToHsv s).h (hexToHsv s).s (hexToHsv s).v
        = ⟨some rr, some gg, some bb⟩ ∧
      |rr - ((r : ℕ) : ℚ)| ≤ 1 ∧ |gg - ((g : ℕ) : ℚ)| ≤ 1 ∧ |bb - ((b : ℕ) : ℚ)| ≤ 1 :=
  ⟨((r : ℕ) : ℚ), ((g : ℕ) : ℚ), ((b : ℕ) : ℚ), roundTrip_valid s r g b h,
    by norm_num, by norm_num, by norm_num⟩

/-- C8 witness: the round trip at the concrete color `#3aF091`. -/
theorem c8_witness :
    ∃ rr gg bb : ℚ,
      hsvToRgb (hexToHsv "#3aF091").h (hexToHsv "#3aF091").s (hexToHsv "#3aF091").v
        = ⟨some rr, some gg, some bb⟩ ∧
      |rr - ((58 : ℕ) : ℚ)| ≤ 1 ∧ |gg - ((240 : ℕ) : ℚ)| ≤ 1 ∧ |bb - ((145 : ℕ) : ℚ)| ≤ 1 :=
  c8_hex_round_trip "#3aF091" 58 240 145
    ⟨'3', 'a', 'F', '0', '9', '1', 3, 10, 15, 0, 9, 1, by decide, by decide, by decide,
      by decide, by decide, by decide, by decide, rfl, rfl, rfl⟩

/-- The hue `hexToHsv` computes always lies in `[0, 360)`. -/
theorem hueOf_mem (r g b : ℚ) : 0 ≤ hueOf r g b ∧ hueOf r g b < 360 := by
  have hrmax : r ≤ max r (max g b) := le_max_left _ _
  have hgmax : g ≤ max r (max g b) := le_trans (le_max_left _ _) (le_max_right _ _)
  have hbmax : b ≤ max r (max g b) := le_trans (le_max_right _ _) (le_max_right _ _)
  have hrmin : min r (min g b) ≤ r := min_le_left _ _
  have hgmin : min r (min g b) ≤ g := le_trans (min_le_right _ _) (min_le_left _ _)
  have hbmin : min r (min g b) ≤ b := le_trans (min_le_right _ _) (min_le_right _ _)
  simp only [hueOf]
  split_ifs with h1 h2 h3 h4
  · norm_num
  · have hdpos : 0 < max r (max g b) - min r (min g b) :=
      lt_of_le_of_ne (by linarith) (Ne.symm h1)
    have hub : (g - b) / (max r (max g b) - min r (min g b)) < 0 :=
      div_neg_of_neg_of_pos (by linarith) hdpos
    have hlb : -1 ≤ (g - b) / (max r (max g b) - min r (min g b)) := by
      rw [le_div_iff₀ hdpos]
      linarith
    constructor <;> linarith
  · have hdpos : 0 < max r (max g b) - min r (min g b) :=
      lt_of_le_of_ne (by linarith) (Ne.symm h1)
    have hub : (g - b) / (max r (max g b) - min r (min g b)) ≤ 1 := by
      rw [div_le_one hdpos]
      linarith
    have hlb : 0 ≤ (g - b) / (max r (max g b) - min r (min g b)) :=
      div_nonneg (by linarith [le_of_not_lt h3]) (le_of_lt hdpos)
    constructor <;> linarith
  · have hdpos : 0 < max r (max g b) - min r (min g b) :=
      lt_of_le_of_ne (by linarith) (Ne.symm h1)
    have hub : (b - r) / (max r (max g b) - min r (min g b)) ≤ 1 := by
      rw [div_le_one hdpos]
      linarith
    have hlb : -1 ≤ (b - r) / (max r (max g b) - min r (min g b)) := by
      rw [le_div_iff₀ hdpos]
      linarith
    constructor <;> linarith
  · have hdpos : 0 < max r (max g b) - min r (min g b) :=
      lt_of_le_of_ne (by linarith) (Ne.symm h1)
    have hub : (r - g) / (max r (max g b) - min r (min g b)) ≤ 1 := by
      rw [div_le_one hdpos]
      linarith
    have hlb : -1 ≤ (r - g) / (max r (max g b) - min r (min g b)) := by
      rw [le_div_iff₀ hdpos]
      linarith
    constructor <;> linarith

/-- `interpolateHue` at `t = 0` returns the first hue, already normalised. -/
theorem interpolateHue_zero (h1 h2 : ℚ) (hm0 : 0 ≤ h1) (hm1 : h1 < 360) :
    interpolateHue (some h1) (some h2) (some 0) = some h1 := by
  rw [interpolateHue_some]
  rw [mul_zero, add_zero]
  unfold hueStart
  split_ifs
  · rw [wrapQ_eq_self h1 hm0 hm1, wrapQ_add_360 h1 hm0 hm1]
  · rw [wrapQ_eq_self h1 hm0 hm1, wrapQ_eq_self h1 hm0 hm1]
  · rw [wrapQ_eq_self h1 hm0 hm1, wrapQ_eq_self h1 hm0 hm1]

/-- `interpolateHue` at `t = 1` returns the second hue, already
normalised. -/
theorem interpolateHue_one (h1 h2 : ℚ) (hm0 : 0 ≤ h2) (hm1 : h2 < 360) :
    interpolateHue (some h1) (some h2) (some 1) = some h2 := by
  rw [interpolateHue_some, mul_one]
  have hsum : hueStart h1 h2 + (hueEnd h1 h2 - hueStart h1 h2) = hueEnd h1 h2 := by ring
  rw [hsum]
  unfold hueEnd
  split_ifs
  · rw [wrapQ_eq_self h2 hm0 hm1, wrapQ_eq_self h2 hm0 hm1]
  · rw [wrapQ_eq_self h2 hm0 hm1, wrapQ_add_360 h2 hm0 hm1]
  · rw [wrapQ_eq_self h2 hm0 hm1, wrapQ_eq_self h2 hm0 hm1]

/-- One unfolding step of the bracketing scan. -/
theorem scanBracket_cons (t : JNum) (a b : ColorStop) (rest : List ColorStop) :
    scanBracket t (a :: b :: rest) =
      if jLe (some a.position) t && jLe t (some b.position) then some (a, b)
      else scanBracket t (b :: rest) := rfl

/-- In a stop list with strictly ascending positions, the head's position
is below the last position of the tail. -/
theorem chain_stop_lt_last (x : ColorStop) (ys : List ColorStop) (hne : ys ≠ [])
    (hch : List.Chain' (· < ·) ((x :: ys).map ColorStop.position)) :
    x.position < (ys.getLast hne).position := by
  induction ys generalizing x with
  | nil => exact absurd rfl hne
  | cons y ys ih =>
    rcases List.chain'_cons.mp (by simpa using hch) with ⟨hxy, hch2⟩
    cases ys with
    | nil => simpa using hxy
    | cons z zs =>
      have h2 := ih y (by simp) (by simpa using hch2)
      rw [List.getLast_cons (by simp)]
      exact lt_trans hxy h2

/-- Scanning for the bracket of `t = 1` in a strictly ascending stop list
ending at position 1 returns the final pair, whose left end is below 1. -/
theorem scanBracket_at_one (a b : ColorStop) (l : List ColorStop)
    (hch : List.Chain' (· < ·) ((a :: b :: l).map ColorStop.position))
    (hlast : ((a :: b :: l).getLast (List.cons_ne_nil _ _)).position = 1)
    (hlt : a.position < 1) :
    ∃ p : ColorStop, scanBracket (some 1) (a :: b :: l)
        = some (p, (a :: b :: l).getLast (List.cons_ne_nil _ _)) ∧ p.position < 1 ∧
        p ∈ a :: b :: l := by
  induction l generalizing a b with
  | nil =>
    have hb1 : b.position = 1 := by simpa using hlast
    refine ⟨a, ?_, hlt, by simp⟩
    rw [scanBracket_cons]
    have hcond : (jLe (some a.position) (some 1) && jLe (some 1) (some b.position)) = true := by
      simp only [jLe_some, Bool.and_eq_true, decide_eq_true_eq]
      exact ⟨le_of_lt hlt, le_of_eq hb1.symm⟩
    rw [hcond]
    simp
  | cons c l ih =>
    have hch' : a.position < b.position ∧ b.position < c.position ∧
        List.Chain' (· < ·) (c.position :: l.map ColorStop.position) := by simpa using hch
    have hch2 : List.Chain' (· < ·) ((b :: c :: l).map ColorStop.position) := by
      simp only [List.map_cons]
      exact List.chain'_cons.mpr ⟨hch'.2.1, by simpa using hch'.2.2⟩
    have hlast3 : ((b :: c :: l).getLast (List.cons_ne_nil _ _)).position = 1 := by
      rw [← hlast]
      exact congrArg ColorStop.position (List.getLast_cons (List.cons_ne_nil _ _)).symm
    have hlast4 : ((c :: l).getLast (List.cons_ne_nil _ _)).position = 1 := by
      rw [← hlast3]
      exact congrArg ColorStop.position (List.getLast_cons (List.cons_ne_nil _ _)).symm
    have hblt : b.position < 1 := by
      have h2 := chain_stop_lt_last b (c :: l) (List.cons_ne_nil _ _) hch2
      rw [← hlast4]
      exact h2
    have hcond : (jLe (some a.position) (some 1) && jLe (some 1) (some b.position)) = false := by
      simp only [jLe_some]
      rw [decide_eq_false (not_le.mpr hblt), Bool.and_false]
    obtain ⟨p, hscan, hp, hmem⟩ := ih b c hch2 hlast3 hblt
    refine ⟨p, ?_, hp, List.mem_cons_of_mem a hmem⟩
    rw [scanBracket_cons, hcond]
    simp only [Bool.false_eq_true, if_false]
    rw [hscan]
    exact congrArg (fun q => some (p, q)) (List.getLast_cons (List.cons_ne_nil _ _)).symm

@[simp] theorem Hsv_h_mk (h s v : JNum) : (Hsv.mk h s v).h = h := rfl

@[simp] theorem Hsv_s_mk (h s v : JNum) : (Hsv.mk h s v).s = s := rfl

@[simp] theorem Hsv_v_mk (h s v : JNum) : (Hsv.mk h s v).v = v := rfl

set_option maxHeartbeats 1000000 in
/-- C6: for a valid stop list — at least two stops, strictly ascending
positions, boundary stops at positions 0 and 1, every stop a valid 6-digit
hex color — gradient resolution at the endpoints returns the boundary stop
colors exactly, channel for channel. -/
theorem c6_resolve_endpoints (s0 s1 : ColorStop) (rest : List ColorStop)
    (r0 g0 b0 rl gl bl : ℕ)
    (hfirst : s0.position = 0)
    (hlast : ((s0 :: s1 :: rest).getLast (List.cons_ne_nil _ _)).position = 1)
    (hchain : List.Chain' (· < ·) ((s0 :: s1 :: rest).map ColorStop.position))
    (hc0 : ValidHexColor s0.color r0 g0 b0)
    (hvalid : ∀ st ∈ s0 :: s1 :: rest, ∃ r g b : ℕ, ValidHexColor st.color r g b)
    (hcl : ValidHexColor ((s0 :: s1 :: rest).getLast (List.cons_ne_nil _ _)).color rl gl bl) :
    interpolateGradientStops (s0 :: s1 :: rest) (some 0)
      = some ⟨some ((r0 : ℕ) : ℚ), some ((g0 : ℕ) : ℚ), some ((b0 : ℕ) : ℚ)⟩ ∧
    interpolateGradientStops (s0 :: s1 :: rest) (some 1)
      = some ⟨some ((rl : ℕ) : ℚ), some ((gl : ℕ) : ℚ), some ((bl : ℕ) : ℚ)⟩ := by
  have hch01 : s0.position < s1.position := by
    have h := hchain
    simp only [List.map_cons] at h
    exact (List.chain'_cons.mp h).1
  have hs1pos : 0 < s1.position := by rw [← hfirst]; exact hch01
  constructor
  · obtain ⟨r1, g1, b1, hc1⟩ := hvalid s1 (by simp)
    have hbr : scanBracket (some 0) (s0 :: s1 :: rest) = some (s0, s1) := by
      rw [scanBracket_cons]
      have hcond : (jLe (some s0.position) (some 0) && jLe (some 0) (some s1.position)) = true := by
        simp only [jLe_some, Bool.and_eq_true, decide_eq_true_eq]
        exact ⟨le_of_eq hfirst, le_of_lt hs1pos⟩
      rw [hcond]
      simp
    simp only [interpolateGradientStops, hbr, Option.getD_some]
    rw [hfirst]
    have hloc : jDiv (jSub (some (0:ℚ)) (some (0:ℚ))) (some (s1.position - 0)) = some 0 := by
      simp only [jSub_some, jDiv_some]
      rw [if_neg (fun h => ne_of_gt hs1pos (by linarith))]
      norm_num
    rw [hloc]
    rw [hexToHsv_valid s0.color r0 g0 b0 hc0, hexToHsv_valid s1.color r1 g1 b1 hc1]
    unfold interpolateHsv
    simp only [Hsv_h_mk, Hsv_s_mk, Hsv_v_mk]
    rw [interpolateHue_zero _ _ (hueOf_mem _ _ _).1 (hueOf_mem _ _ _).2]
    simp only [jSub_some, jMul_some, jAdd_some]
    have hsimp0 : ∀ x y : ℚ, x + (y - x) * 0 = x := by intro x y; ring
    rw [hsimp0, hsimp0]
    rw [roundTrip_core r0 g0 b0]
  · obtain ⟨p, hscan, hplt, hpmem⟩ := scanBracket_at_one s0 s1 rest hchain hlast
      (by rw [hfirst]; norm_num)
    obtain ⟨rp, gp, bp, hcp⟩ := hvalid p hpmem
    simp only [interpolateGradientStops, hscan, Option.getD_some]
    rw [hlast]
    have hne2 : (1 : ℚ) - p.position ≠ 0 := fun h => absurd hplt (by
      have : p.position = 1 := by linarith
      rw [this]
      exact lt_irrefl 1)
    have hloc : jDiv (jSub (some (1:ℚ)) (some p.position)) (some ((1:ℚ) - p.position))
        = some 1 := by
      simp only [jSub_some, jDiv_some]
      rw [if_neg hne2, div_self hne2]
    rw [hloc]
    rw [hexToHsv_valid p.color rp gp bp hcp,
      hexToHsv_valid ((s0 :: s1 :: rest).getLast (List.cons_ne_nil _ _)).color rl gl bl hcl]
    unfold interpolateHsv
    simp only [Hsv_h_mk, Hsv_s_mk, Hsv_v_mk]
    rw [interpolateHue_one _ _ (hueOf_mem _ _ _).1 (hueOf_mem _ _ _).2]
    simp only [jSub_some, jMul_some, jAdd_some]
    have hsimp1 : ∀ x y : ℚ, x + (y - x) * 1 = y := by intro x y; ring
    rw [hsimp1, hsimp1]
    rw [roundTrip_core rl gl bl]

/-- C6 witness: the endpoints of the concrete two-stop white→black
gradient. -/
theorem c6_witness :
    interpolateGradientStops [⟨"start", "#FFFFFF", 0⟩, ⟨"end", "#000000", 1⟩] (some 0)
      = some ⟨some ((255 : ℕ) : ℚ), some ((255 : ℕ) : ℚ), some ((255 : ℕ) : ℚ)⟩ ∧
    interpolateGradientStops [⟨"start", "#FFFFFF", 0⟩, ⟨"end", "#000000", 1⟩] (some 1)
      = some ⟨some ((0 : ℕ) : ℚ), some ((0 : ℕ) : ℚ), some ((0 : ℕ) : ℚ)⟩ :=
  c6_resolve_endpoints ⟨"start", "#FFFFFF", 0⟩ ⟨"end", "#000000", 1⟩ [] 255 255 255 0 0 0
    rfl rfl
    (List.chain'_cons.mpr ⟨by norm_num, List.chain'_singleton _⟩)
    ⟨'F', 'F', 'F', 'F', 'F', 'F', 15, 15, 15, 15, 15, 15, by decide, by decide, by decide,
      by decide, by decide, by decide, by decide, rfl, rfl, rfl⟩
    (by
      intro st hst
      rcases List.mem_cons.mp hst with h | h
      · exact ⟨255, 255, 255, by rw [h]; exact
          ⟨'F', 'F', 'F', 'F', 'F', 'F', 15, 15, 15, 15, 15, 15, by decide, by decide,
            by decide, by decide, by decide, by decide, by decide, rfl, rfl, rfl⟩⟩
      · have h2 : st = ⟨"end", "#000000", 1⟩ := by simpa using h
        exact ⟨0, 0, 0, by rw [h2]; exact
          ⟨'0', '0', '0', '0', '0', '0', 0, 0, 0, 0, 0, 0, by decide, by decide,
            by decide, by decide, by decide, by decide, by decide, rfl, rfl, rfl⟩⟩)
    ⟨'0', '0', '0', '0', '0', '0', 0, 0, 0, 0, 0, 0, by decide, by decide, by decide,
      by decide, by decide, by decide, by decide, rfl, rfl, rfl⟩

/-! ## Render pass buffer lemmas (towards C2) -/

theorem size_setD (a : Array ℕ) (i v : ℕ) : (a.setD i v).size = a.size :=
  Array.size_setD a i v

theorem getElem?_setD_self (a : Array ℕ) (i v : ℕ) (h : i < a.size) :
    (a.setD i v)[i]? = some v := by
  unfold Array.setD
  rw [dif_pos h]
  rw [getElem?_pos (a.set ⟨i, h⟩ v) i (by simpa using h)]
  simp

theorem getElem?_setD_ne (a : Array ℕ) (i j v : ℕ) (h : i ≠ j) :
    (a.setD i v)[j]? = a[j]? := by
  unfold Array.setD
  split
  · rename_i hi
    rcases Nat.lt_or_ge j a.size with hj | hj
    · rw [getElem?_pos (a.set ⟨i, hi⟩ v) j (by simpa using hj), getElem?_pos a j hj]
      exact congrArg some (Array.getElem_set_ne _ _ _ (by simpa using hj) h)
    · rw [getElem?_neg (a.set ⟨i, hi⟩ v) j (by simpa using Nat.not_lt.mpr hj),
        getElem?_neg a j (Nat.not_lt.mpr hj)]
  · rfl

/-- The four bytes the render pass stores for one pixel (`k < 4` selects
R, G, B, A). -/
def pixelByte (p : RenderParams) (jpow : JNum → JNum → JNum) (startHsv endHsv : Hsv)
    (x y k : ℕ) : ℕ :=
  let iter := mandelIter (pixelReal p x) (pixelImag p y)
  if iter < MAX_ITERATIONS then
    let t := jpow (some ((iter : ℚ) / (MAX_ITERATIONS : ℚ))) p.powerFactor
    let c := interpolateHsv startHsv endHsv t
    if k = 0 then clampByte c.r
    else if k = 1 then clampByte c.g
    else if k = 2 then clampByte c.b
    else 255
  else if k = 3 then 255 else 0

theorem writePixel_size (p : RenderParams) (jpow : JNum → JNum → JNum)
    (sh eh : Hsv) (data : Array ℕ) (x y : ℕ) :
    (writePixel p jpow sh eh data x y).size = data.size := by
  simp only [writePixel]
  split_ifs <;> simp [Array.size_setD]

theorem writePixel_get (p : RenderParams) (jpow : JNum → JNum → JNum)
    (sh eh : Hsv) (data : Array ℕ) (x y k : ℕ) (hk : k < 4)
    (hidx : 4 * (y * p.width + x) + 3 < data.size) :
    (writePixel p jpow sh eh data x y)[4 * (y * p.width + x) + k]?
      = some (pixelByte p jpow sh eh x y k) := by
  have hs1 : ∀ (d : Array ℕ) (i v : ℕ), (d.setD i v).size = d.size := size_setD
  interval_cases k
  · simp only [writePixel, pixelByte]
    norm_num
    split_ifs with hit <;>
      rw [getElem?_setD_ne _ _ _ _ (by omega), getElem?_setD_ne _ _ _ _ (by omega),
        getElem?_setD_ne _ _ _ _ (by omega), getElem?_setD_self _ _ _ (by omega)]
  · simp only [writePixel, pixelByte]
    norm_num
    split_ifs with hit <;>
      rw [getElem?_setD_ne _ _ _ _ (by omega), getElem?_setD_ne _ _ _ _ (by omega),
        getElem?_setD_self _ _ _ (by simp only [size_setD] ; omega)]
  · simp only [writePixel, pixelByte]
    norm_num
    split_ifs with hit <;>
      rw [getElem?_setD_ne _ _ _ _ (by omega),
        getElem?_setD_self _ _ _ (by simp only [size_setD] ; omega)]
  · simp only [writePixel, pixelByte]
    norm_num
    split_ifs with hit <;>
      rw [getElem?_setD_self _ _ _ (by simp only [size_setD] ; omega)]

theorem writePixel_frame (p : RenderParams) (jpow : JNum → JNum → JNum)
    (sh eh : Hsv) (data : Array ℕ) (x y j : ℕ)
    (hj : j < 4 * (y * p.width + x) ∨ 4 * (y * p.width + x) + 3 < j) :
    (writePixel p jpow sh eh data x y)[j]? = data[j]? := by
  simp only [writePixel]
  split_ifs <;>
    rw [getElem?_setD_ne _ _ _ _ (by omega), getElem?_setD_ne _ _ _ _ (by omega),
      getElem?_setD_ne _ _ _ _ (by omega), getElem?_setD_ne _ _ _ _ (by omega)]

theorem rowFold_size (p : RenderParams) (jpow : JNum → JNum → JNum)
    (sh eh : Hsv) (y : ℕ) :
    ∀ (l : List ℕ) (data : Array ℕ),
      (l.foldl (fun d x => writePixel p jpow sh eh d x y) data).size = data.size := by
  intro l
  induction l with
  | nil => intro data; rfl
  | cons a l ih =>
    intro data
    rw [List.foldl_cons, ih, writePixel_size]

theorem rowFold_frame (p : RenderParams) (jpow : JNum → JNum → JNum)
    (sh eh : Hsv) (y : ℕ) :
    ∀ (n : ℕ) (data : Array ℕ) (j : ℕ), j < 4 * (y * p.width) →
      ((List.range n).foldl (fun d x => writePixel p jpow sh eh d x y) data)[j]? = data[j]? := by
  intro n
  induction n with
  | zero => intro data j _; rfl
  | succ n ih =>
    intro data j hj
    rw [List.range_succ, List.foldl_append, List.foldl_cons, List.foldl_nil]
    rw [writePixel_frame _ _ _ _ _ _ _ _ (Or.inl (by omega))]
    exact ih data j hj

theorem rowFold_get (p : RenderParams) (jpow : JNum → JNum → JNum)
    (sh eh : Hsv) (y : ℕ) (hy : y < p.height) :
    ∀ (n : ℕ) (data : Array ℕ), data.size = 4 * (p.width * p.height) →
      ∀ x k : ℕ, x < n → x < p.width → k < 4 →
      ((List.range n).foldl (fun d x => writePixel p jpow sh eh d x y) data)[4 * (y * p.width + x) + k]?
        = some (pixelByte p jpow sh eh x y k) := by
  intro n
  induction n with
  | zero => intro data _ x k hxn _ _; omega
  | succ n ih =>
    intro data hsize x k hxn hxw hk
    rw [List.range_succ, List.foldl_append, List.foldl_cons, List.foldl_nil]
    rcases Nat.lt_or_ge x n with hx | hx
    · rw [writePixel_frame _ _ _ _ _ _ _ _ (Or.inl (by omega))]
      exact ih data hsize x k hx hxw hk
    · have hxeq : x = n := by omega
      subst hxeq
      apply writePixel_get _ _ _ _ _ _ _ _ hk
      rw [rowFold_size]
      rw [hsize]
      have hlt : y * p.width + x < p.width * p.height := by
        calc y * p.width + x < y * p.width + p.width := Nat.add_lt_add_left hxw _
          _ = (y + 1) * p.width := by ring
          _ ≤ p.height * p.width := Nat.mul_le_mul_right _ (Nat.succ_le_of_lt hy)
          _ = p.width * p.height := Nat.mul_comm _ _
      linarith

theorem rowsFold_size (p : RenderParams) (jpow : JNum → JNum → JNum)
    (sh eh : Hsv) :
    ∀ (l : List ℕ) (data : Array ℕ),
      (l.foldl (fun d y => (List.range p.width).foldl
        (fun d x => writePixel p jpow sh eh d x y) d) data).size = data.size := by
  intro l
  induction l with
  | nil => intro data; rfl
  | cons a l ih =>
    intro data
    rw [List.foldl_cons, ih, rowFold_size]

theorem rowsFold_get (p : RenderParams) (jpow : JNum → JNum → JNum) (sh eh : Hsv) :
    ∀ (m : ℕ) (data : Array ℕ), data.size = 4 * (p.width * p.height) →
      ∀ y x k : ℕ, y < m → y < p.height → x < p.width → k < 4 →
      ((List.range m).foldl (fun d y => (List.range p.width).foldl
          (fun d x => writePixel p jpow sh eh d x y) d) data)[4 * (y * p.width + x) + k]?
        = some (pixelByte p jpow sh eh x y k) := by
  intro m
  induction m with
  | zero => intro data _ y x k hym _ _ _; omega
  | succ m ih =>
    intro data hsize y x k hym hyh hxw hk
    rw [List.range_succ, List.foldl_append, List.foldl_cons, List.foldl_nil]
    rcases Nat.lt_or_ge y m with hy | hy
    · have hjlt : 4 * (y * p.width + x) + k < 4 * (m * p.width) := by
        have hlt : y * p.width + x < m * p.width := by
          calc y * p.width + x < y * p.width + p.width := Nat.add_lt_add_left hxw _
            _ = (y + 1) * p.width := by ring
            _ ≤ m * p.width := Nat.mul_le_mul_right _ (Nat.succ_le_of_lt hy)
        linarith
      rw [rowFold_frame _ _ _ _ _ _ _ _ hjlt]
      exact ih data hsize y x k hy hyh hxw hk
    · have hyeq : y = m := by omega
      subst hyeq
      apply rowFold_get p jpow sh eh y hyh p.width _ _ x k hxw hxw hk
      rw [rowsFold_size]
      exact hsize

theorem escapeLoop_le (real imag : ℚ) :
    ∀ (fuel : ℕ) (zr zi : ℚ) (iter : ℕ), escapeLoop real imag fuel zr zi iter ≤ iter + fuel := by
  intro fuel
  induction fuel with
  | zero => intro zr zi iter; simp [escapeLoop]
  | succ n ih =>
    intro zr zi iter
    rw [escapeLoop]
    split_ifs
    · calc escapeLoop real imag n _ _ (iter + 1) ≤ iter + 1 + n := ih _ _ _
        _ = iter + (n + 1) := by omega
    · omega

theorem mandelIter_le (real imag : ℚ) : mandelIter real imag ≤ MAX_ITERATIONS := by
  unfold mandelIter
  split_ifs
  · exact le_refl _
  · simpa using escapeLoop_le real imag MAX_ITERATIONS 0 0 0

theorem pixelReal_def (p : RenderParams) (x : ℕ) :
    p.centerX + (((x : ℚ) - (p.width : ℚ) / 2) * (2.5 / p.zoom)) / (p.width : ℚ)
      = pixelReal p x := rfl

theorem pixelImag_def (p : RenderParams) (y : ℕ) :
    p.centerY + (((y : ℚ) - (p.height : ℚ) / 2) * (2.5 / p.zoom)) / (p.width : ℚ)
      = pixelImag p y := rfl

theorem pixelByte_spec (p : RenderParams) (jpow : JNum → JNum → JNum) (x y : ℕ) :
    pixelByte p jpow (hexToHsv p.startColor) (hexToHsv p.endColor) x y 0
        = (specPixelRGBA p jpow x y).1
      ∧ pixelByte p jpow (hexToHsv p.startColor) (hexToHsv p.endColor) x y 1
        = (specPixelRGBA p jpow x y).2.1
      ∧ pixelByte p jpow (hexToHsv p.startColor) (hexToHsv p.endColor) x y 2
        = (specPixelRGBA p jpow x y).2.2.1
      ∧ pixelByte p jpow (hexToHsv p.startColor) (hexToHsv p.endColor) x y 3
        = (specPixelRGBA p jpow x y).2.2.2 := by
  have hle := mandelIter_le (pixelReal p x) (pixelImag p y)
  simp only [pixelByte, specPixelRGBA]
  rw [pixelReal_def, pixelImag_def]
  by_cases hit : mandelIter (pixelReal p x) (pixelImag p y) < MAX_ITERATIONS
  · have hne : mandelIter (pixelReal p x) (pixelImag p y) ≠ MAX_ITERATIONS := Nat.ne_of_lt hit
    simp [hit, hne]
  · have heq : mandelIter (pixelReal p x) (pixelImag p y) = MAX_ITERATIONS :=
      le_antisymm hle (Nat.le_of_not_lt hit)
    simp [hit, heq]

/-- C2: for every pixel `(x, y)` of the `width × height` bitmap, the render
pass's buffer holds, at the four bytes of index `4*(y*width + x)`, exactly
the RGBA value of the claim's reference definition `specPixelRGBA`: the
plane map divides by `width` on both axes, interior points (iteration count
equal to `MAX_ITERATIONS`) become black, escaped points the gradient color
at `t = (iter / MAX_ITERATIONS) ^ powerFactor` with the exponent applied
before the gradient lookup, and the alpha byte is always `255`.  The
exponentiation is an arbitrary abstract `jpow`, so the equality holds for
any model of `Math.pow`. -/
theorem c2_render_pass_matches_reference (p : RenderParams) (jpow : JNum → JNum → JNum)
    (x y : ℕ) (hx : x < p.width) (hy : y < p.height) :
    (renderData p jpow).size = 4 * (p.width * p.height)
      ∧ (renderData p jpow)[4 * (y * p.width + x)]? = some (specPixelRGBA p jpow x y).1
      ∧ (renderData p jpow)[4 * (y * p.width + x) + 1]? = some (specPixelRGBA p jpow x y).2.1
      ∧ (renderData p jpow)[4 * (y * p.width + x) + 2]? = some (specPixelRGBA p jpow x y).2.2.1
      ∧ (renderData p jpow)[4 * (y * p.width + x) + 3]? = some (specPixelRGBA p jpow x y).2.2.2 := by
  have hsize0 : (Array.mkArray (4 * (p.width * p.height)) (0 : ℕ)).size
      = 4 * (p.width * p.height) := by simp
  have hget := rowsFold_get p jpow (hexToHsv p.startColor) (hexToHsv p.endColor)
    p.height (Array.mkArray (4 * (p.width * p.height)) 0) hsize0 y x
  have hspec := pixelByte_spec p jpow x y
  refine ⟨?_, ?_, ?_, ?_, ?_⟩
  · simp only [renderData]
    rw [rowsFold_size]
    exact hsize0
  · have h0 := hget 0 hy hy hx (by omega)
    rw [hspec.1] at h0
    simp only [renderData]
    simpa using h0
  · have h1 := hget 1 hy hy hx (by omega)
    rw [hspec.2.1] at h1
    simp only [renderData]
    exact h1
  · have h2 := hget 2 hy hy hx (by omega)
    rw [hspec.2.2.1] at h2
    simp only [renderData]
    exact h2
  · have h3 := hget 3 hy hy hx (by omega)
    rw [hspec.2.2.2] at h3
    simp only [renderData]
    exact h3

theorem c2_witness :
    0 < 2
      ∧ ((renderData (RenderParams.mk 2 2 0 0 1 "#FFFFFF" "#000000" (some 1))
            (fun t _ => t)).size = 4 * (2 * 2)
        ∧ (renderData (RenderParams.mk 2 2 0 0 1 "#FFFFFF" "#000000" (some 1))
            (fun t _ => t))[4 * (0 * 2 + 0)]?
          = some (specPixelRGBA (RenderParams.mk 2 2 0 0 1 "#FFFFFF" "#000000" (some 1))
              (fun t _ => t) 0 0).1
        ∧ (renderData (RenderParams.mk 2 2 0 0 1 "#FFFFFF" "#000000" (some 1))
            (fun t _ => t))[4 * (0 * 2 + 0) + 1]?
          = some (specPixelRGBA (RenderParams.mk 2 2 0 0 1 "#FFFFFF" "#000000" (some 1))
              (fun t _ => t) 0 0).2.1
        ∧ (renderData (RenderParams.mk 2 2 0 0 1 "#FFFFFF" "#000000" (some 1))
            (fun t _ => t))[4 * (0 * 2 + 0) + 2]?
          = some (specPixelRGBA (RenderParams.mk 2 2 0 0 1 "#FFFFFF" "#000000" (some 1))
              (fun t _ => t) 0 0).2.2.1
        ∧ (renderData (RenderParams.mk 2 2 0 0 1 "#FFFFFF" "#000000" (some 1))
            (fun t _ => t))[4 * (0 * 2 + 0) + 3]?
          = some (specPixelRGBA (RenderParams.mk 2 2 0 0 1 "#FFFFFF" "#000000" (some 1))
              (fun t _ => t) 0 0).2.2.2) :=
  ⟨by decide,
    c2_render_pass_matches_reference
      (RenderParams.mk 2 2 0 0 1 "#FFFFFF" "#000000" (some 1))
      (fun t _ => t) 0 0 (by decide) (by decide)⟩

end Mandel
